import Mathlib

/-!
# BitTorrent client: bencoding codec, peer wire protocol and download pipeline

A shallow embedding of the Go sources (`decoder.go`, `encoder.go`, `p2p.go`,
`main.go`, `networking.go`).  Go strings and byte slices are lists of byte
values (`List Nat`), Go `int` values that are never negative in the program
(lengths, cursors, piece indices) are `Nat`, decoded bencoded integers are `Int`.
-/

namespace BitTorrent

/-! ## Bytes, decimal text and `strconv.Atoi` -/

/-- Byte values of an ASCII string literal. -/
def bytes (s : String) : List Nat := s.toList.map Char.toNat

/-- Decimal digits of a natural number, most significant first (bounded recursion). -/
def natToDecimalFuel : Nat → Nat → List Nat
  | 0, _ => []
  | fuel + 1, n =>
    if n < 10 then [48 + n] else natToDecimalFuel fuel (n / 10) ++ [48 + n % 10]

/-- The text that `fmt.Sprintf("%d", n)` prints for a non-negative `n`. -/
def natToDecimal (n : Nat) : List Nat := natToDecimalFuel (n + 1) n

/-- The text that `fmt.Sprintf("%d", n)` prints for a Go `int`. -/
def formatInt (n : Int) : List Nat :=
  if n < 0 then 45 :: natToDecimal n.natAbs else natToDecimal n.natAbs

/-- Value of a run of ASCII digits, `none` when a byte is not a digit. -/
def digitsValue (acc : Nat) : List Nat → Option Nat
  | [] => some acc
  | c :: cs => if 48 ≤ c ∧ c ≤ 57 then digitsValue (acc * 10 + (c - 48)) cs else none

/-- Go `strconv.Atoi` on a 64-bit platform: an optional sign, then one or more
decimal digits; `none` stands for a returned error (syntax or range). -/
def Atoi (s : List Nat) : Option Int :=
  match s with
  | [] => none
  | c :: cs =>
    let neg : Bool := c = 45
    let ds : List Nat := if c = 45 ∨ c = 43 then cs else s
    match ds with
    | [] => none
    | _ :: _ =>
      match digitsValue 0 ds with
      | none => none
      | some v =>
        if neg then (if v ≤ 2 ^ 63 then some (-(v : Int)) else none)
        else (if v < 2 ^ 63 then some (v : Int) else none)

/-! ## Bencoding decoder (`decoder.go`) -/

/-- How a call can fail: a Go `error` value returned to the caller, `abort`
(message printed, `os.Exit(1)`), a runtime panic, the bounded recursion of
the model running out, or waiting for ever on a channel. -/
inductive Fault
  | error
  | abort
  | panic
  | fuel
  | blocked
  deriving DecidableEq, Repr

/-- Decoded bencoding values: what `Decoder.decode` stores in `interface{}`.
A Go `map[string]interface{}` is a key/value list with pairwise distinct keys. -/
inductive Value
  | int (n : Int)
  | str (s : List Nat)
  | list (xs : List Value)
  | dict (m : List (List Nat × Value))

inductive BencodingDataType
  | Int
  | String
  | List
  | Dictionary
  | Unknown
  deriving DecidableEq, Repr

/-- Index of the first occurrence of byte `b`, the scanning loops of
`parseString` and `parseInt`. -/
def firstIndex (b : Nat) : List Nat → Option Nat
  | [] => none
  | c :: cs => if c = b then some 0 else (firstIndex b cs).map (· + 1)

/-- Go map assignment `m[k] = v`. -/
def mapSet (m : List (List Nat × Value)) (k : List Nat) (v : Value) :
    List (List Nat × Value) :=
  match m with
  | [] => [(k, v)]
  | (k', v') :: rest => if k' = k then (k, v) :: rest else (k', v') :: mapSet rest k v

/-- Method `Decoder.parseString` at cursor `cur`: the string and the new cursor. -/
def parseString (value : List Nat) (cur : Nat) : Except Fault (List Nat × Nat) :=
  if value.length < cur then .error .panic else
  let bencodedString := value.drop cur
  match firstIndex 58 bencodedString with
  | none => .error .error
  | some firstColonIndex =>
    match Atoi (bencodedString.take firstColonIndex) with
    | none => .error .error
    | some length =>
      if length < 0 ∨ (bencodedString.length : Int) < firstColonIndex + length + 1 then
        .error .panic
      else
        .ok ((bencodedString.drop (firstColonIndex + 1)).take length.toNat,
             cur + firstColonIndex + length.toNat + 1)

/-- Method `Decoder.parseInt` at cursor `cur`: the integer and the new cursor. -/
def parseInt (value : List Nat) (cur : Nat) : Except Fault (Int × Nat) :=
  if value.length < cur then .error .panic else
  let bencodedInt := value.drop cur
  match firstIndex 101 bencodedInt with
  | none => .error .error
  | some terminationIndex =>
    match Atoi (bencodedInt.take terminationIndex) with
    | none => .error .error
    | some intValue => .ok (intValue, cur + terminationIndex + 1)

/-- Method `Decoder.determineDataType`: the type tag and the new cursor; indexing past
the end of the input panics. -/
def determineDataType (value : List Nat) (cur : Nat) : Except Fault (BencodingDataType × Nat) :=
  match value.get? cur with
  | none => .error .panic
  | some c =>
    if 48 ≤ c ∧ c ≤ 57 then .ok (.String, cur)
    else if c = 105 then .ok (.Int, cur + 1)
    else if c = 108 then .ok (.List, cur + 1)
    else if c = 100 then .ok (.Dictionary, cur + 1)
    else .ok (.Unknown, cur + 1)

mutual
/-- Method `Decoder.decode` at cursor `cur`: the decoded value and the new cursor. -/
def decode : Nat → List Nat → Nat → Except Fault (Value × Nat)
  | 0, _, _ => .error .fuel
  | fuel + 1, value, cur =>
    match determineDataType value cur with
    | .error e => .error e
    | .ok (.Int, cur1) =>
      match parseInt value cur1 with
      | .ok (n, cur2) => .ok (.int n, cur2)
      | .error .error => .error .abort
      | .error e => .error e
    | .ok (.String, cur1) =>
      match parseString value cur1 with
      | .ok (s, cur2) => .ok (.str s, cur2)
      | .error .error => .error .abort
      | .error e => .error e
    | .ok (.List, cur1) => decodeList fuel value cur1 []
    | .ok (.Dictionary, cur1) => decodeDict fuel value cur1 []
    | .ok (.Unknown, _) => .error .abort
/-- The `for` loop of the `List` case, `result` being the elements so far. -/
def decodeList : Nat → List Nat → Nat → List Value → Except Fault (Value × Nat)
  | 0, _, _, _ => .error .fuel
  | fuel + 1, value, cur, result =>
    match value.get? cur with
    | none => .ok (.list result, cur + 1)
    | some c =>
      if c = 101 then .ok (.list result, cur + 1)
      else
        match decode fuel value cur with
        | .error e => .error e
        | .ok (data, cur1) => decodeList fuel value cur1 (result ++ [data])
/-- The `for` loop of the `Dictionary` case, `result` being the map so far. -/
def decodeDict : Nat → List Nat → Nat → List (List Nat × Value) → Except Fault (Value × Nat)
  | 0, _, _, _ => .error .fuel
  | fuel + 1, value, cur, result =>
    match value.get? cur with
    | none => .ok (.dict result, cur + 1)
    | some c =>
      if c = 101 then .ok (.dict result, cur + 1)
      else
        match decode fuel value cur with
        | .error e => .error e
        | .ok (key, cur1) =>
          match decode fuel value cur1 with
          | .error e => .error e
          | .ok (v, cur2) =>
            match key with
            | .str keyStr => decodeDict fuel value cur2 (mapSet result keyStr v)
            | _ => .error .abort
end

/-- The call `Decoder{value, 0}.decode()`; the recursion budget is twice the input length
plus two (every nested call but the first of a loop follows a consumed byte). -/
def decodeAll (value : List Nat) : Except Fault (Value × Nat) :=
  decode (2 * value.length + 2) value 0

/-- A call of the decoder that came to an end: it returned a value, called
`abort`, or panicked. -/
def Terminated (r : Except Fault (Value × Nat)) : Prop :=
  (∃ v cur, r = .ok (v, cur)) ∨ r = .error .abort ∨ r = .error .panic

/-! ## Bencoding encoder (`encoder.go`) -/

/-- Go string comparison: byte-wise lexicographic order. -/
def strLe : List Nat → List Nat → Bool
  | [], _ => true
  | _ :: _, [] => false
  | a :: as, b :: bs => a < b || (a == b && strLe as bs)

/-- Go `slices.Sort` on a slice of strings: the ascending rearrangement. -/
def sortKeys (keys : List (List Nat)) : List (List Nat) :=
  keys.insertionSort (fun a b => strLe a b = true)

/-- Go map lookup `m[k]`. -/
def mapGet (m : List (List Nat × Value)) (k : List Nat) : Option Value :=
  match m with
  | [] => none
  | (k', v) :: rest => if k' = k then some v else mapGet rest k

/-- The body of the emitting loop of `encodeDict` over the sorted keys. -/
def encodeEntries (dictData : List (List Nat × Value)) :
    List (List Nat) → Except Fault (List Nat)
  | [] => .ok []
  | key :: rest =>
    let bencodedKey := natToDecimal key.length ++ 58 :: key
    match mapGet dictData key with
    | some (.int typedValue) =>
      match encodeEntries dictData rest with
      | .ok out => .ok (bencodedKey ++ (105 :: formatInt typedValue ++ [101]) ++ out)
      | .error e => .error e
    | some (.str typedValue) =>
      match encodeEntries dictData rest with
      | .ok out =>
        .ok (bencodedKey ++ (natToDecimal typedValue.length ++ 58 :: typedValue) ++ out)
      | .error e => .error e
    | _ => .error .abort

/-- Function `encodeDict`: the list order of `dictData` is the order in which `range`
enumerates the map. -/
def encodeDict (dictData : List (List Nat × Value)) : Except Fault (List Nat) :=
  let mapKeys := sortKeys (dictData.map Prod.fst)
  match encodeEntries dictData mapKeys with
  | .ok out => .ok (100 :: out ++ [101])
  | .error e => .error e

/-- Go string comparison `a < b`. -/
def strLt (a b : List Nat) : Bool := strLe a b && !strLe b a

/-! ## Canonical bencoding text (the grammar of the specification) -/

/-- The values `encodeDict` accepts in a dictionary: integers and byte strings. -/
def Value.isLeaf : Value → Bool
  | .int _ => true
  | .str _ => true
  | _ => false

/-- An integer leaf lies in the range of a 64-bit Go `int`. -/
def Value.inRange : Value → Bool
  | .int n => decide (-(2 ^ 63 : Int) ≤ n ∧ n < 2 ^ 63)
  | _ => true

/-- Canonical text of a leaf: `i<n>e` or `<len>:<bytes>`. -/
def leafText : Value → List Nat
  | .int n => 105 :: (formatInt n ++ [101])
  | .str s => natToDecimal s.length ++ 58 :: s
  | _ => []

/-- Canonical text of a dictionary entry: `<len(key)>:<key>` then the value. -/
def entryText (kv : List Nat × Value) : List Nat :=
  natToDecimal kv.1.length ++ 58 :: (kv.1 ++ leafText kv.2)

/-- Canonical text of a dictionary given by its entries in key order. -/
def dictText (kvs : List (List Nat × Value)) : List Nat :=
  100 :: (kvs.flatMap entryText ++ [101])

/-! ## Byte order helpers (`encoding/binary`) -/

/-- Go `binary.BigEndian.Uint16`. -/
def Uint16 (b : List Nat) : Nat := b.getD 1 0 ||| (b.getD 0 0 <<< 8)

/-- Go `binary.BigEndian.Uint32`. -/
def Uint32 (b : List Nat) : Nat :=
  b.getD 3 0 ||| (b.getD 2 0 <<< 8) ||| (b.getD 1 0 <<< 16) ||| (b.getD 0 0 <<< 24)

/-- Go `binary.BigEndian.AppendUint32(b, v)` for a `uint32` value `v`. -/
def AppendUint32 (b : List Nat) (v : Nat) : List Nat :=
  b ++ [(v >>> 24) % 256, (v >>> 16) % 256, (v >>> 8) % 256, v % 256]

/-- Go conversion `uint32(x)` of an `int`. -/
def toUint32 (x : Int) : Nat := (x % 2 ^ 32).toNat

/-! ## Connections (`networking.go`) -/

/-- One TCP connection as the session sees it: `inbox` holds the bytes the peer
sends before the stream ends, `outbox` the data written so far (one entry per
`sendData` call), `writes` the number of `sendData` calls that still succeed. -/
structure Conn where
  inbox : List Nat
  outbox : List (List Nat)
  writes : Nat

/-- Function `sendData`: writes all of `data`, or returns the write error. -/
def sendData (c : Conn) (data : List Nat) : Except Fault Unit × Conn :=
  if c.writes = 0 then (.error .error, c)
  else (.ok (), { c with outbox := c.outbox ++ [data], writes := c.writes - 1 })

/-- Function `receiveData`: reads exactly `bufferSize` bytes, or returns the read error
when the stream ends first. -/
def receiveData (c : Conn) (bufferSize : Nat) : Except Fault (List Nat) × Conn :=
  if c.inbox.length < bufferSize then (.error .error, { c with inbox := [] })
  else (.ok (c.inbox.take bufferSize), { c with inbox := c.inbox.drop bufferSize })

/-! ## Peer wire protocol (`p2p.go`) -/

abbrev PeerMessageId := Nat

def Choke : PeerMessageId := 0
def Unchoke : PeerMessageId := 1
def Interested : PeerMessageId := 2
def NotInterested : PeerMessageId := 3
def Have : PeerMessageId := 4
def Bitfield : PeerMessageId := 5
def Request : PeerMessageId := 6
def Piece : PeerMessageId := 7
def Cancel : PeerMessageId := 8

structure PeerMessage where
  length : Nat
  messageId : PeerMessageId
  payload : List Nat
  deriving DecidableEq, Repr

/-- Function `receivePeerMsg`, `fuel` bounding the number of passes through the label
`GET_MESSAGE_LENGTH`. -/
def receivePeerMsgLoop : Nat → Conn → Except Fault PeerMessage × Conn
  | 0, c => (.error .fuel, c)
  | fuel + 1, c =>
    match receiveData c 4 with
    | (.error e, c1) => (.error e, c1)
    | (.ok lengthPrefix, c1) =>
      let msgLength := Uint32 lengthPrefix
      if msgLength = 0 then receivePeerMsgLoop fuel c1
      else
        match receiveData c1 msgLength with
        | (.error e, c2) => (.error e, c2)
        | (.ok peerMsg, c2) =>
          let result : PeerMessage :=
            { length := msgLength, messageId := peerMsg.getD 0 0, payload := [] }
          if msgLength = 1 then (.ok result, c2)
          else (.ok { result with payload := peerMsg.drop 1 }, c2)

/-- Function `receivePeerMsg`: every pass consumes four bytes, so the budget is never
exhausted. -/
def receivePeerMsg (c : Conn) : Except Fault PeerMessage × Conn :=
  receivePeerMsgLoop (c.inbox.length / 4 + 1) c

/-- Function `receiveExpectedMsg`; on a read error the zero message (id 0) is
compared with `expected`. -/
def receiveExpectedMsg (c : Conn) (expected : PeerMessageId) : Except Fault PeerMessage × Conn :=
  match receivePeerMsg c with
  | (.error e, c1) => if Choke ≠ expected then (.error .error, c1) else (.error e, c1)
  | (.ok peerMsg, c1) =>
    if peerMsg.messageId ≠ expected then (.error .error, c1) else (.ok peerMsg, c1)

/-- Function `hasPiece`, for a piece index that is not negative. -/
def hasPiece (pieceIndex : Nat) (payload : List Nat) : Bool :=
  let byteIndex := pieceIndex / 8
  let offset := 7 - pieceIndex % 8
  if payload.length ≤ byteIndex then false
  else
    let targetByte := payload.getD byteIndex 0
    ((targetByte >>> offset) &&& 1) == 1

/-! ## Metadata and piece download (`main.go`, `p2p.go`) -/

/-- Struct `MetaInfo`; `fileLength` and `pieceLength` are taken non-negative. -/
structure MetaInfo where
  announce : List Nat
  fileLength : Nat
  pieceLength : Nat
  infoHash : List Nat
  piecesHash : List (List Nat)

/-- The piece length `downloadPiece` computes in its first lines; the remainder
by a zero `pieceLength` is a runtime panic. -/
def downloadPieceLength (metaInfo : MetaInfo) (pieceIndex : Nat) : Except Fault Nat :=
  let totalPieces := metaInfo.piecesHash.length
  if pieceIndex + 1 = totalPieces then
    if metaInfo.pieceLength = 0 then .error .panic
    else if metaInfo.fileLength % metaInfo.pieceLength ≠ 0 then
      .ok (metaInfo.fileLength % metaInfo.pieceLength)
    else .ok metaInfo.pieceLength
  else .ok metaInfo.pieceLength

/-- Go conversion `float64(n)` of a non-negative `int`, as the integer it
denotes: exact below `2 ^ 53`, else rounded to 53 significant bits, ties to even. -/
def float64OfNat (n : Nat) : Nat :=
  if n < 2 ^ 53 then n
  else
    let shift := Nat.log2 n - 52
    let q := n / 2 ^ shift
    let r := n % 2 ^ shift
    if r < 2 ^ (shift - 1) ∨ (r = 2 ^ (shift - 1) ∧ q % 2 = 0) then q * 2 ^ shift
    else (q + 1) * 2 ^ shift

/-- The value `int(math.Ceil(float64(pieceLength) / float64(blockSize)))` for
`blockSize = 16384`: dividing by a power of two is exact. -/
def totalBlocksOf (pieceLength : Nat) : Nat := (float64OfNat pieceLength + 16383) / 16384

/-- The request frame `downloadPiece` builds for one block. -/
def requestMsg (pieceIndex pieceOffset : Nat) (blockLength : Int) : List Nat :=
  AppendUint32
    (AppendUint32
      (AppendUint32 (AppendUint32 [] (toUint32 (1 + 4 + 4 + 4)) ++ [Request % 256])
        (toUint32 pieceIndex))
      (toUint32 pieceOffset))
    (toUint32 blockLength)

/-- The request loop of `downloadPiece`. -/
def downloadPieceLoop (pieceIndex pieceLength totalBlocks : Nat) :
    Nat → Conn → Nat → Nat → List Nat → Except Fault (List Nat) × Conn
  | 0, c, _, _, _ => (.error .fuel, c)
  | fuel + 1, c, i, totalBytesRead, pieceData =>
    if totalBlocks ≤ i then (.ok pieceData, c)
    else
      let blockSize := 16 * 1024
      let pieceOffset := i * blockSize
      let blockLength : Int :=
        if i + 1 = totalBlocks then (pieceLength : Int) - (totalBytesRead : Int)
        else (blockSize : Int)
      match sendData c (requestMsg pieceIndex pieceOffset blockLength) with
      | (.error e, c1) => (.error e, c1)
      | (.ok _, c1) =>
        match receivePeerMsg c1 with
        | (.error e, c2) => (.error e, c2)
        | (.ok peerMsg, c2) =>
          if peerMsg.messageId = Piece then
            if peerMsg.payload.length < 8 then (.error .panic, c2)
            else
              let blockData := peerMsg.payload.drop 8
              downloadPieceLoop pieceIndex pieceLength totalBlocks fuel c2 (i + 1)
                (totalBytesRead + blockData.length) (pieceData ++ blockData)
          else if peerMsg.messageId = Choke then
            let c3 := (receiveExpectedMsg c2 Unchoke).2
            downloadPieceLoop pieceIndex pieceLength totalBlocks fuel c3 i totalBytesRead pieceData
          else if peerMsg.messageId = Unchoke then
            downloadPieceLoop pieceIndex pieceLength totalBlocks fuel c2 i totalBytesRead pieceData
          else (.error .abort, c2)

/-- Function `downloadPiece`: every pass of the loop that does not return reads at least
five bytes, so the budget `len(inbox) + 1` is never exhausted. -/
def downloadPiece (c : Conn) (metaInfo : MetaInfo) (pieceIndex : Nat) :
    Except Fault (List Nat) × Conn :=
  match downloadPieceLength metaInfo pieceIndex with
  | .error e => (.error e, c)
  | .ok pieceLength =>
    downloadPieceLoop pieceIndex pieceLength (totalBlocksOf pieceLength)
      (c.inbox.length + 1) c 0 0 []

/-! ## Tracker response (`main.go`) -/

/-- Function `getValue[string]`: the key must exist and hold a string, else `abort`. -/
def getValueString (metaInfo : List (List Nat × Value)) (key : List Nat) :
    Except Fault (List Nat) :=
  match mapGet metaInfo key with
  | some (.str typedValue) => .ok typedValue
  | _ => .error .abort

/-- The address text `requestPeers` formats for one 6-byte record. -/
def peerAddr (peer : List Nat) : List Nat :=
  let peerIp := peer.take 5
  let peerPort := Uint16 (peer.drop 4)
  natToDecimal (peerIp.getD 0 0) ++ 46 :: (natToDecimal (peerIp.getD 1 0) ++ 46 ::
    (natToDecimal (peerIp.getD 2 0) ++ 46 :: (natToDecimal (peerIp.getD 3 0) ++ 58 ::
      natToDecimal peerPort)))

/-- The loop of `requestPeers` over the compact `peers` string. -/
def peersList (peers : List Nat) : List (List Nat) :=
  let PeerLength := 6
  let peersCount := peers.length / PeerLength
  (List.range peersCount).map (fun i =>
    let startIndex := i * PeerLength
    peerAddr ((peers.drop startIndex).take PeerLength))

/-- Function `requestPeers` from the body of the tracker's HTTP response on. -/
def requestPeers (body : List Nat) : Except Fault (List (List Nat)) :=
  match decodeAll body with
  | .error e => .error e
  | .ok (.dict trackerResponse, _) =>
    match getValueString trackerResponse (bytes "peers") with
    | .error e => .error e
    | .ok peers => .ok (peersList peers)
  | .ok _ => .error .abort

/-! ## Sessions and the coordinator (`main.go`) -/

structure JobResult where
  pieceIndex : Nat
  data : List Nat
  deriving DecidableEq, Repr

/-- One send on a channel of `main`: `jobQueue <- pieceIndex` or
`finishedJobs <- JobResult{...}`. -/
inductive ChanSend
  | jobQueue (pieceIndex : Nat)
  | finishedJobs (jobResult : JobResult)
  deriving DecidableEq, Repr

/-- How one pass of the job loop of `startJob` ends: the loop goes on
(`continue` or the end of the body), `startJob` returns, or the whole process
is terminated. -/
inductive Control
  | next
  | done
  | exit (f : Fault)
  deriving DecidableEq, Repr

/-- What one pass of the job loop does: its channel sends in order, how it ends,
and the session's counter and connection afterwards. -/
structure LoopResult where
  sends : List ChanSend
  control : Control
  badHashErrors : Nat
  conn : Conn

/-- The body of `for pieceIndex := range jobQueue` in `startJob`, for the index
just received; `sha1` is `crypto/sha1` (`hash.Sum(nil)` of the piece). -/
def startJobLoopBody (sha1 : List Nat → List Nat) (metaInfo : MetaInfo)
    (bitfieldPayload : List Nat) (peerConn : Conn) (badHashErrors pieceIndex : Nat) :
    LoopResult :=
  if 5 ≤ badHashErrors then
    ⟨[.jobQueue pieceIndex], .done, badHashErrors, peerConn⟩
  else if !hasPiece pieceIndex bitfieldPayload then
    ⟨[.jobQueue pieceIndex], .next, badHashErrors, peerConn⟩
  else
    match downloadPiece peerConn metaInfo pieceIndex with
    | (.error .error, conn1) => ⟨[.jobQueue pieceIndex], .done, badHashErrors, conn1⟩
    | (.error f, conn1) => ⟨[], .exit f, badHashErrors, conn1⟩
    | (.ok pieceData, conn1) =>
      match metaInfo.piecesHash.get? pieceIndex with
      | none => ⟨[], .exit .panic, badHashErrors, conn1⟩
      | some expectedHash =>
        let pieceHash := sha1 pieceData
        if expectedHash ≠ pieceHash then
          ⟨[.jobQueue pieceIndex], .next, badHashErrors + 1, conn1⟩
        else
          ⟨[.finishedJobs ⟨pieceIndex, pieceData⟩], .next, badHashErrors, conn1⟩

/-- The job loop of `startJob`, `for pieceIndex := range jobQueue`, over the
indices the session receives from the queue, in order: the sends of all its
passes and how the last one ends (`next`: the session waits on the queue). -/
def startJobLoop (sha1 : List Nat → List Nat) (metaInfo : MetaInfo)
    (bitfieldPayload : List Nat) : List Nat → Conn → Nat → LoopResult
  | [], peerConn, badHashErrors => ⟨[], .next, badHashErrors, peerConn⟩
  | pieceIndex :: received, peerConn, badHashErrors =>
    let r := startJobLoopBody sha1 metaInfo bitfieldPayload peerConn badHashErrors pieceIndex
    match r.control with
    | .next =>
      let r' := startJobLoop sha1 metaInfo bitfieldPayload received r.conn r.badHashErrors
      ⟨r.sends ++ r'.sends, r'.control, r'.badHashErrors, r'.conn⟩
    | _ => r

/-- One session past its opening sequence: `pieceIndex` is the index it has
received from `jobQueue` and not yet dealt with, `running` is false once
`startJob` has returned. -/
structure Session where
  peerConn : Conn
  bitfieldPayload : List Nat
  badHashErrors : Nat
  pieceIndex : Option Nat
  running : Bool

/-- The shared state of the download: the contents of `jobQueue`, the results `main` has
received from `finishedJobs` (in order), and the sessions. -/
structure Pipeline where
  jobQueue : List Nat
  finishedJobs : List JobResult
  sessions : List Session

/-- Effect of one channel send on the shared state. -/
def Pipeline.deliver (sys : Pipeline) : ChanSend → Pipeline
  | .jobQueue pieceIndex => { sys with jobQueue := sys.jobQueue ++ [pieceIndex] }
  | .finishedJobs jobResult => { sys with finishedJobs := sys.finishedJobs ++ [jobResult] }

/-- One step of session `k`: it receives the next index from `jobQueue` (or
leaves the loop when the queue is empty and closed), or runs the loop body for
the index it holds.  `none`: the session cannot move (not running, or waiting
on the empty queue), or the step terminates the process. -/
def Pipeline.step (sha1 : List Nat → List Nat) (metaInfo : MetaInfo) (sys : Pipeline) (k : Nat) :
    Option Pipeline :=
  match sys.sessions.get? k with
  | none => none
  | some s =>
    if !s.running then none
    else
      match s.pieceIndex with
      | none =>
        match sys.jobQueue with
        | [] =>
          if metaInfo.piecesHash.length ≤ sys.finishedJobs.length then
            some { sys with sessions := sys.sessions.set k { s with running := false } }
          else none
        | pieceIndex :: rest =>
          some { sys with
            jobQueue := rest
            sessions := sys.sessions.set k { s with pieceIndex := some pieceIndex } }
      | some pieceIndex =>
        let r := startJobLoopBody sha1 metaInfo s.bitfieldPayload s.peerConn s.badHashErrors
          pieceIndex
        match r.control with
        | .exit _ => none
        | ctl =>
          some (r.sends.foldl Pipeline.deliver
            { sys with
              sessions := sys.sessions.set k
                { peerConn := r.conn, bitfieldPayload := s.bitfieldPayload,
                  badHashErrors := r.badHashErrors, pieceIndex := none,
                  running := decide (ctl = .next) } })

/-- The steps of a schedule (which session moves next), in order. -/
def Pipeline.run (sha1 : List Nat → List Nat) (metaInfo : MetaInfo) :
    Pipeline → List Nat → Option Pipeline
  | sys, [] => some sys
  | sys, k :: schedule =>
    match Pipeline.step sha1 metaInfo sys k with
    | none => none
    | some sys1 => Pipeline.run sha1 metaInfo sys1 schedule

/-- The state `main` sets up: every index `0 .. N-1` queued once, nothing
received, no session holding an index. -/
def Pipeline.init (metaInfo : MetaInfo) (sessions : List Session) : Pipeline :=
  { jobQueue := List.range metaInfo.piecesHash.length
    finishedJobs := []
    sessions := sessions.map (fun s => { s with pieceIndex := none }) }

/-- The piece indices accounted for: queued, held by a session, or delivered. -/
def Pipeline.indices (sys : Pipeline) : List Nat :=
  sys.jobQueue ++ sys.sessions.filterMap (fun s => s.pieceIndex)
    ++ sys.finishedJobs.map (fun r => r.pieceIndex)

/-- The statement `copy(fileData[fileDataBegin:fileDataEnd], jobResult.data)`; slicing past
the end of the buffer panics. -/
def copyPiece (fileData : List Nat) (fileDataBegin : Nat) (data : List Nat) :
    Except Fault (List Nat) :=
  let fileDataEnd := fileDataBegin + data.length
  if fileData.length < fileDataEnd then .error .panic
  else .ok (fileData.take fileDataBegin ++ data ++ fileData.drop fileDataEnd)

/-- The receive loop of `main`: `received` is what arrives on `finishedJobs`,
in order; the loop waits for ever when fewer than `totalPieces` results arrive. -/
def mainLoop (metaInfo : MetaInfo) (totalPieces : Nat) :
    List JobResult → Nat → List Nat → Except Fault (List Nat)
  | [], piecesDone, fileData =>
    if totalPieces ≤ piecesDone then .ok fileData else .error .blocked
  | jobResult :: rest, piecesDone, fileData =>
    if totalPieces ≤ piecesDone then .ok fileData
    else
      let fileDataBegin := metaInfo.pieceLength * jobResult.pieceIndex
      match copyPiece fileData fileDataBegin jobResult.data with
      | .error e => .error e
      | .ok fileData1 => mainLoop metaInfo totalPieces rest (piecesDone + 1) fileData1

/-- The output buffer `main` writes to the file, given what arrives on
`finishedJobs`. -/
def mainFileData (metaInfo : MetaInfo) (received : List JobResult) : Except Fault (List Nat) :=
  mainLoop metaInfo metaInfo.piecesHash.length received 0
    (List.replicate metaInfo.fileLength 0)

/-! ## Frames of the wire protocol (the layouts of the specification) -/

/-- The constant `ClientId`. -/
def ClientId : List Nat := bytes "00112233445566778899"

/-- Function `handshakePeer`: the peer id of the reply, or the send, read or
format error. -/
def handshakePeer (c : Conn) (infoHash : List Nat) : Except Fault (List Nat) × Conn :=
  let ProtocolSignature := bytes "BitTorrent protocol"
  let payload :=
    [ProtocolSignature.length % 256] ++ ProtocolSignature ++ List.replicate 8 0 ++ infoHash
      ++ ClientId
  match sendData c payload with
  | (.error e, c1) => (.error e, c1)
  | (.ok _, c1) =>
    match receiveData c1 payload.length with
    | (.error e, c2) => (.error e, c2)
    | (.ok reply, c2) =>
      let reservedBytesIndex := 1 + ProtocolSignature.length
      let peerIdIndex := payload.length - ClientId.length
      if payload.take reservedBytesIndex ≠ reply.take reservedBytesIndex then
        (.error .error, c2)
      else (.ok (reply.drop peerIdIndex), c2)

/-! ## Metadata loader (`main.go`) -/

/-- Function `getValue[int]`: the key must exist and hold an integer, else `abort`. -/
def getValueInt (metaInfo : List (List Nat × Value)) (key : List Nat) : Except Fault Int :=
  match mapGet metaInfo key with
  | some (.int typedValue) => .ok typedValue
  | _ => .error .abort

/-- Function `getValue[map[string]interface{}]`: the key must exist and hold a
dictionary, else `abort`. -/
def getValueDict (metaInfo : List (List Nat × Value)) (key : List Nat) :
    Except Fault (List (List Nat × Value)) :=
  match mapGet metaInfo key with
  | some (.dict typedValue) => .ok typedValue
  | _ => .error .abort

/-- The constant `SHAHashLength`. -/
def SHAHashLength : Nat := 20

/-- The loop of `extractMetaInfo` that cuts `pieces` into digests. -/
def splitPieces (concatenatedPieces : List Nat) : List (List Nat) :=
  let totalPieces := concatenatedPieces.length / SHAHashLength
  (List.range totalPieces).map (fun i =>
    let hashStart := i * SHAHashLength
    (concatenatedPieces.drop hashStart).take SHAHashLength)

/-- Struct `MetaInfo` as `extractMetaInfo` fills it: `fileLength` and
`pieceLength` are the decoded Go `int` values, unchanged, so they may be
negative (the download model above, `MetaInfo`, takes them non-negative). -/
structure DecodedMetaInfo where
  announce : List Nat
  fileLength : Int
  pieceLength : Int
  infoHash : List Nat
  piecesHash : List (List Nat)

/-- Function `extractMetaInfo` from the bytes of the torrent file on; `sha1` is
`crypto/sha1`. -/
def extractMetaInfo (sha1 : List Nat → List Nat) (data : List Nat) :
    Except Fault DecodedMetaInfo :=
  match decodeAll data with
  | .error e => .error e
  | .ok (.dict metaInfo, _) => do
    let announce ← getValueString metaInfo (bytes "announce")
    let fileInfo ← getValueDict metaInfo (bytes "info")
    let fileLength ← getValueInt fileInfo (bytes "length")
    let pieceLength ← getValueInt fileInfo (bytes "piece length")
    let concatenatedPieces ← getValueString fileInfo (bytes "pieces")
    let encodedInfo ← encodeDict fileInfo
    pure
      { announce := announce
        fileLength := fileLength
        pieceLength := pieceLength
        infoHash := sha1 encodedInfo
        piecesHash := splitPieces concatenatedPieces }
  | .ok _ => .error .abort

/-! # Properties -/

/-! ## Decimal text -/

theorem natToDecimalFuel_digits (fuel n : Nat) :
    ∀ c ∈ natToDecimalFuel fuel n, 48 ≤ c ∧ c ≤ 57 := by
  induction fuel generalizing n with
  | zero => intro c hc; simp [natToDecimalFuel] at hc
  | succ f ih =>
    intro c hc
    unfold natToDecimalFuel at hc
    split at hc
    · simp at hc; omega
    · rcases List.mem_append.1 hc with h | h
      · exact ih _ c h
      · simp at h; omega

theorem natToDecimalFuel_ne_nil (fuel n : Nat) (h : n < fuel) :
    natToDecimalFuel fuel n ≠ [] := by
  cases fuel with
  | zero => omega
  | succ f =>
    unfold natToDecimalFuel
    split <;> simp

theorem digitsValue_natToDecimalFuel (fuel : Nat) :
    ∀ (n acc : Nat) (rest : List Nat), n < fuel →
      digitsValue acc (natToDecimalFuel fuel n ++ rest)
        = digitsValue (acc * 10 ^ (natToDecimalFuel fuel n).length + n) rest := by
  induction fuel with
  | zero => intro n acc rest h; omega
  | succ f ih =>
    intro n acc rest h
    unfold natToDecimalFuel
    split
    · rename_i h10
      have h1 : 48 ≤ 48 + n ∧ 48 + n ≤ 57 := by omega
      simp [digitsValue, h1]
    · rename_i h10
      have hlt : n / 10 < f := by omega
      have h1 : 48 ≤ 48 + n % 10 ∧ 48 + n % 10 ≤ 57 := by omega
      rw [List.append_assoc, ih (n / 10) acc _ hlt]
      simp only [List.singleton_append, digitsValue, h1, and_self, if_true, List.length_append,
        List.length_singleton, Nat.add_sub_cancel_left]
      congr 1
      rw [pow_succ]
      have := Nat.div_add_mod n 10
      nlinarith [this]

theorem natToDecimal_digits (n : Nat) : ∀ c ∈ natToDecimal n, 48 ≤ c ∧ c ≤ 57 :=
  natToDecimalFuel_digits _ _

theorem natToDecimal_ne_nil (n : Nat) : natToDecimal n ≠ [] :=
  natToDecimalFuel_ne_nil _ _ (Nat.lt_succ_self n)

theorem digitsValue_natToDecimal (n : Nat) : digitsValue 0 (natToDecimal n) = some n := by
  have h := digitsValue_natToDecimalFuel (n + 1) n 0 [] (Nat.lt_succ_self n)
  simpa [natToDecimal, digitsValue] using h

theorem Atoi_natToDecimal (n : Nat) (h : n < 2 ^ 63) : Atoi (natToDecimal n) = some (n : Int) := by
  have hne := natToDecimal_ne_nil n
  have hd := natToDecimal_digits n
  have hv := digitsValue_natToDecimal n
  cases hs : natToDecimal n with
  | nil => exact absurd hs hne
  | cons c cs =>
    rw [hs] at hd hv
    have hc := hd c (List.mem_cons_self _ _)
    have h45 : c ≠ 45 := by omega
    have h43 : c ≠ 43 := by omega
    have h' : n < 9223372036854775808 := by omega
    simp [Atoi, h45, h43, hv, h']

theorem Atoi_formatInt (n : Int) (hlo : -(2 ^ 63 : Int) ≤ n) (hhi : n < 2 ^ 63) :
    Atoi (formatInt n) = some n := by
  unfold formatInt
  split
  · rename_i hneg
    have hne := natToDecimal_ne_nil n.natAbs
    have hv := digitsValue_natToDecimal n.natAbs
    cases hs : natToDecimal n.natAbs with
    | nil => exact absurd hs hne
    | cons c cs =>
      rw [hs] at hv
      have hle : n.natAbs ≤ 2 ^ 63 := by omega
      have hle' : n.natAbs ≤ 9223372036854775808 := by omega
      have habs : |n| = -n := abs_of_neg hneg
      simp [Atoi, hv, hle', habs]
  · rename_i hneg
    have hlt : n.natAbs < 2 ^ 63 := by omega
    rw [Atoi_natToDecimal _ hlt]
    congr 1
    omega

/-! ## Decoder on canonical text -/

theorem firstIndex_append (b : Nat) (ds rest : List Nat) (h : ∀ c ∈ ds, c ≠ b) :
    firstIndex b (ds ++ b :: rest) = some ds.length := by
  induction ds with
  | nil => simp [firstIndex]
  | cons d ds ih =>
    have hd : d ≠ b := h d (List.mem_cons_self _ _)
    have ih' := ih (fun c hc => h c (List.mem_cons_of_mem _ hc))
    simp [firstIndex, hd, ih']

theorem parseString_canon (pre s post : List Nat) (h : s.length < 2 ^ 63) :
    parseString (pre ++ (natToDecimal s.length ++ 58 :: (s ++ post))) pre.length
      = .ok (s, pre.length + (natToDecimal s.length).length + s.length + 1) := by
  have hcolon : ∀ c ∈ natToDecimal s.length, c ≠ 58 := by
    intro c hc
    have := natToDecimal_digits _ c hc
    omega
  have hnot : ¬ (pre ++ (natToDecimal s.length ++ 58 :: (s ++ post))).length < pre.length := by
    simp
  unfold parseString
  rw [if_neg hnot]
  simp only [List.drop_left, firstIndex_append 58 _ _ hcolon, List.take_left,
    Atoi_natToDecimal _ h]
  have hcond : ¬ (((s.length : Nat) : Int) < 0 ∨
      (((natToDecimal s.length ++ 58 :: (s ++ post)).length : Nat) : Int)
        < ((natToDecimal s.length).length : Int) + (s.length : Int) + 1) := by
    simp only [List.length_append, List.length_cons]
    push_cast
    omega
  rw [if_neg hcond]
  have hdrop : List.drop ((natToDecimal s.length).length + 1)
      (natToDecimal s.length ++ 58 :: (s ++ post)) = s ++ post := by
    rw [List.drop_append_eq_append_drop]
    simp
  simp [hdrop]

theorem formatInt_no_e (n : Int) : ∀ c ∈ formatInt n, c ≠ 101 := by
  intro c hc
  unfold formatInt at hc
  split at hc
  · rcases List.mem_cons.1 hc with h | h
    · omega
    · have := natToDecimal_digits _ c h
      omega
  · have := natToDecimal_digits _ c hc
    omega

theorem parseInt_canon (pre post : List Nat) (n : Int)
    (hlo : -(2 ^ 63 : Int) ≤ n) (hhi : n < 2 ^ 63) :
    parseInt (pre ++ (formatInt n ++ 101 :: post)) pre.length
      = .ok (n, pre.length + (formatInt n).length + 1) := by
  have hnot : ¬ (pre ++ (formatInt n ++ 101 :: post)).length < pre.length := by simp
  unfold parseInt
  rw [if_neg hnot]
  simp only [List.drop_left, firstIndex_append 101 _ _ (formatInt_no_e n), List.take_left,
    Atoi_formatInt n hlo hhi]

theorem natToDecimal_head (n : Nat) :
    ∃ c cs, natToDecimal n = c :: cs ∧ 48 ≤ c ∧ c ≤ 57 := by
  cases hs : natToDecimal n with
  | nil => exact absurd hs (natToDecimal_ne_nil n)
  | cons c cs =>
    refine ⟨c, cs, rfl, ?_⟩
    have := natToDecimal_digits n c (by rw [hs]; exact List.mem_cons_self _ _)
    exact this

theorem get?_append_length (pre : List Nat) (c : Nat) (rest : List Nat) :
    (pre ++ c :: rest).get? pre.length = some c := by
  induction pre with
  | nil => rfl
  | cons a pre ih => simpa using ih

theorem decode_str_canon (fuel : Nat) (pre s post : List Nat) (h : s.length < 2 ^ 63) :
    decode (fuel + 1) (pre ++ (leafText (.str s) ++ post)) pre.length
      = .ok (.str s, pre.length + (leafText (.str s)).length) := by
  obtain ⟨c, cs, hcs, hc1, hc2⟩ := natToDecimal_head s.length
  have hget : (pre ++ (leafText (.str s) ++ post)).get? pre.length = some c := by
    simp only [leafText, hcs, List.cons_append]
    exact get?_append_length _ _ _
  have hdt : determineDataType (pre ++ (leafText (.str s) ++ post)) pre.length
      = .ok (.String, pre.length) := by
    unfold determineDataType
    rw [hget]
    simp [hc1, hc2]
  have hps := parseString_canon pre s post h
  have hshape : pre ++ (leafText (.str s) ++ post)
      = pre ++ (natToDecimal s.length ++ 58 :: (s ++ post)) := by
    simp [leafText]
  unfold decode
  rw [hdt]
  simp only
  rw [hshape, hps]
  simp [leafText]
  omega

theorem decode_int_canon (fuel : Nat) (pre post : List Nat) (n : Int)
    (hlo : -(2 ^ 63 : Int) ≤ n) (hhi : n < 2 ^ 63) :
    decode (fuel + 1) (pre ++ (leafText (.int n) ++ post)) pre.length
      = .ok (.int n, pre.length + (leafText (.int n)).length) := by
  have hget : (pre ++ (leafText (.int n) ++ post)).get? pre.length = some 105 := by
    simp only [leafText, List.cons_append]
    exact get?_append_length _ _ _
  have hdt : determineDataType (pre ++ (leafText (.int n) ++ post)) pre.length
      = .ok (.Int, pre.length + 1) := by
    unfold determineDataType
    rw [hget]
    simp
  have hpi := parseInt_canon (pre ++ [105]) post n hlo hhi
  have hshape : pre ++ (leafText (.int n) ++ post)
      = (pre ++ [105]) ++ (formatInt n ++ 101 :: post) := by
    simp [leafText]
  have hlen : (pre ++ [105]).length = pre.length + 1 := by simp
  unfold decode
  rw [hdt]
  simp only
  rw [hshape, ← hlen, hpi]
  simp [leafText]
  omega

theorem decode_leaf_canon (fuel : Nat) (pre post : List Nat) (v : Value)
    (hleaf : v.isLeaf = true) (hrange : v.inRange = true)
    (hlen : (leafText v).length < 2 ^ 63) :
    decode (fuel + 1) (pre ++ (leafText v ++ post)) pre.length
      = .ok (v, pre.length + (leafText v).length) := by
  cases v with
  | int n =>
    simp only [Value.inRange, decide_eq_true_eq] at hrange
    exact decode_int_canon fuel pre post n hrange.1 hrange.2
  | str s =>
    apply decode_str_canon
    simp only [leafText, List.length_append, List.length_cons] at hlen
    omega
  | list xs => simp [Value.isLeaf] at hleaf
  | dict m => simp [Value.isLeaf] at hleaf

theorem entryText_length_pos (kv : List Nat × Value) : 2 ≤ (entryText kv).length := by
  obtain ⟨c, cs, hcs, _⟩ := natToDecimal_head kv.1.length
  simp [entryText, hcs]
  omega

theorem flatMap_entryText_length (kvs : List (List Nat × Value)) :
    kvs.length ≤ (kvs.flatMap entryText).length := by
  induction kvs with
  | nil => simp
  | cons kv kvs ih =>
    have := entryText_length_pos kv
    simp only [List.flatMap_cons, List.length_append, List.length_cons]
    omega

theorem decodeDict_canon (kvs : List (List Nat × Value)) :
    ∀ (fuel : Nat) (pre post : List Nat) (acc : List (List Nat × Value)),
      (∀ kv ∈ kvs, kv.2.isLeaf = true ∧ kv.2.inRange = true) →
      (kvs.flatMap entryText).length < 2 ^ 63 →
      kvs.length + 2 ≤ fuel →
      decodeDict fuel (pre ++ (kvs.flatMap entryText ++ 101 :: post)) pre.length acc
        = .ok (.dict (kvs.foldl (fun m kv => mapSet m kv.1 kv.2) acc),
               pre.length + (kvs.flatMap entryText).length + 1) := by
  induction kvs with
  | nil =>
    intro fuel pre post acc _ _ hfuel
    obtain ⟨f, rfl⟩ : ∃ f, fuel = f + 1 := ⟨fuel - 1, by omega⟩
    have hget : (pre ++ ([].flatMap entryText ++ 101 :: post)).get? pre.length = some 101 := by
      simp only [List.flatMap_nil, List.nil_append]
      exact get?_append_length _ _ _
    unfold decodeDict
    rw [hget]
    simp
  | cons kv kvs ih =>
    intro fuel pre post acc hleaf hlen hfuel
    obtain ⟨k, v⟩ := kv
    obtain ⟨f, rfl⟩ : ∃ f, fuel = f + 1 := ⟨fuel - 1, by omega⟩
    obtain ⟨g, rfl⟩ : ∃ g, f = g + 1 := ⟨f - 1, by simp at hfuel; omega⟩
    have hv := hleaf (k, v) (List.mem_cons_self _ _)
    have hrest : ∀ kv ∈ kvs, kv.2.isLeaf = true ∧ kv.2.inRange = true :=
      fun kv h => hleaf kv (List.mem_cons_of_mem _ h)
    simp only [List.flatMap_cons, List.length_append] at hlen
    have hentry : (entryText (k, v)).length
        = (natToDecimal k.length).length + 1 + k.length + (leafText v).length := by
      simp [entryText]; omega
    obtain ⟨c, cs, hcs, hc1, hc2⟩ := natToDecimal_head k.length
    -- the byte under the cursor is the first digit of the key length
    have hget : (pre ++ ((((k, v) :: kvs).flatMap entryText) ++ 101 :: post)).get? pre.length
        = some c := by
      simp only [List.flatMap_cons, entryText, hcs, List.cons_append, List.append_assoc]
      exact get?_append_length _ _ _
    have hne : c ≠ 101 := by omega
    -- the key
    have hkey : decode (g + 1)
        (pre ++ ((((k, v) :: kvs).flatMap entryText) ++ 101 :: post)) pre.length
        = .ok (.str k, pre.length + (leafText (.str k)).length) := by
      have hshape : pre ++ ((((k, v) :: kvs).flatMap entryText) ++ 101 :: post)
          = pre ++ (leafText (.str k) ++ (leafText v ++ (kvs.flatMap entryText ++ 101 :: post))) := by
        simp [entryText, leafText]
      rw [hshape]
      exact decode_str_canon g pre k _ (by omega)
    -- the value
    have hval : decode (g + 1)
        (pre ++ ((((k, v) :: kvs).flatMap entryText) ++ 101 :: post))
        (pre.length + (leafText (.str k)).length)
        = .ok (v, pre.length + (entryText (k, v)).length) := by
      have hshape : pre ++ ((((k, v) :: kvs).flatMap entryText) ++ 101 :: post)
          = (pre ++ leafText (.str k)) ++ (leafText v ++ (kvs.flatMap entryText ++ 101 :: post)) := by
        simp [entryText, leafText]
      have hl : pre.length + (leafText (.str k)).length = (pre ++ leafText (.str k)).length := by
        simp
      rw [hshape, hl, decode_leaf_canon g _ _ v hv.1 hv.2 (by omega)]
      simp [entryText, leafText]
      omega
    -- the remaining entries
    have hloop := ih (g + 1) (pre ++ entryText (k, v)) post (mapSet acc k v) hrest (by omega)
      (by simp at hfuel; omega)
    have hshape : (pre ++ entryText (k, v)) ++ (kvs.flatMap entryText ++ 101 :: post)
        = pre ++ ((((k, v) :: kvs).flatMap entryText) ++ 101 :: post) := by
      simp
    have hl : (pre ++ entryText (k, v)).length = pre.length + (entryText (k, v)).length := by
      simp
    rw [hshape, hl] at hloop
    rw [decodeDict.eq_def]
    simp only
    rw [hget]
    simp only [if_neg hne, hkey, hval, hloop]
    simp [List.foldl_cons]
    omega

/-! ## Key order and map lookups -/

theorem strLe_total (a b : List Nat) : strLe a b = true ∨ strLe b a = true := by
  induction a generalizing b with
  | nil => simp [strLe]
  | cons x xs ih =>
    cases b with
    | nil => simp [strLe]
    | cons y ys =>
      simp only [strLe, Bool.or_eq_true, decide_eq_true_eq, Bool.and_eq_true, beq_iff_eq]
      rcases Nat.lt_trichotomy x y with h | h | h
      · exact Or.inl (Or.inl h)
      · rcases ih ys with h' | h'
        · exact Or.inl (Or.inr ⟨h, h'⟩)
        · exact Or.inr (Or.inr ⟨h.symm, h'⟩)
      · exact Or.inr (Or.inl h)

theorem strLe_trans (a b c : List Nat) (hab : strLe a b = true) (hbc : strLe b c = true) :
    strLe a c = true := by
  induction a generalizing b c with
  | nil => simp [strLe]
  | cons x xs ih =>
    cases b with
    | nil => simp [strLe] at hab
    | cons y ys =>
      cases c with
      | nil => simp [strLe] at hbc
      | cons z zs =>
        simp only [strLe, Bool.or_eq_true, decide_eq_true_eq, Bool.and_eq_true,
          beq_iff_eq] at hab hbc ⊢
        rcases hab with h1 | ⟨h1, h1'⟩
        · rcases hbc with h2 | ⟨h2, _⟩
          · exact Or.inl (by omega)
          · exact Or.inl (by omega)
        · rcases hbc with h2 | ⟨h2, h2'⟩
          · exact Or.inl (by omega)
          · exact Or.inr ⟨by omega, ih ys zs h1' h2'⟩

theorem strLe_antisymm (a b : List Nat) (hab : strLe a b = true) (hba : strLe b a = true) :
    a = b := by
  induction a generalizing b with
  | nil =>
    cases b with
    | nil => rfl
    | cons y ys => simp [strLe] at hba
  | cons x xs ih =>
    cases b with
    | nil => simp [strLe] at hab
    | cons y ys =>
      simp only [strLe, Bool.or_eq_true, decide_eq_true_eq, Bool.and_eq_true,
        beq_iff_eq] at hab hba
      rcases hab with h1 | ⟨h1, h1'⟩
      · rcases hba with h2 | ⟨h2, _⟩ <;> omega
      · rcases hba with h2 | ⟨_, h2'⟩
        · omega
        · rw [h1, ih ys h1' h2']

theorem strLe_isTotal : IsTotal (List Nat) (fun a b => strLe a b = true) :=
  ⟨strLe_total⟩

theorem strLe_isTrans : IsTrans (List Nat) (fun a b => strLe a b = true) :=
  ⟨strLe_trans⟩

theorem strLe_isAntisymm : IsAntisymm (List Nat) (fun a b => strLe a b = true) :=
  ⟨strLe_antisymm⟩

theorem strLe_of_strLt (a b : List Nat) (h : strLt a b = true) : strLe a b = true := by
  simp [strLt] at h
  exact h.1

theorem strLt_of_strLe_of_ne (a b : List Nat) (h : strLe a b = true) (hne : a ≠ b) :
    strLt a b = true := by
  simp only [strLt, Bool.and_eq_true, Bool.not_eq_true', h, true_and]
  cases hba : strLe b a with
  | false => rfl
  | true => exact absurd (strLe_antisymm a b h hba) hne

theorem strLt_irrefl (a : List Nat) : strLt a a = false := by
  simp [strLt]

theorem sortKeys_sorted (keys : List (List Nat)) :
    (sortKeys keys).Sorted (fun a b => strLe a b = true) := by
  haveI := strLe_isTotal
  haveI := strLe_isTrans
  exact List.sorted_insertionSort _ keys

theorem sortKeys_perm (keys : List (List Nat)) : (sortKeys keys).Perm keys :=
  List.perm_insertionSort _ keys

theorem sortKeys_strict (keys : List (List Nat)) (hnd : keys.Nodup) :
    (sortKeys keys).Pairwise (fun a b => strLt a b = true) := by
  have hs : (sortKeys keys).Pairwise (fun a b => strLe a b = true) := sortKeys_sorted keys
  have hn : (sortKeys keys).Pairwise (fun a b => a ≠ b) := (sortKeys_perm keys).nodup_iff.2 hnd
  exact (hs.and hn).imp (fun h => strLt_of_strLe_of_ne _ _ h.1 h.2)

theorem sortKeys_of_strict (keys : List (List Nat))
    (h : keys.Pairwise (fun a b => strLt a b = true)) : sortKeys keys = keys :=
  List.Sorted.insertionSort_eq (h.imp (fun h => strLe_of_strLt _ _ h))

theorem nodup_of_strict (keys : List (List Nat))
    (h : keys.Pairwise (fun a b => strLt a b = true)) : keys.Nodup := by
  refine h.imp ?_
  intro a b hab heq
  subst heq
  rw [strLt_irrefl] at hab
  exact Bool.noConfusion hab

theorem sortKeys_congr (k₁ k₂ : List (List Nat)) (h : k₁.Perm k₂) :
    sortKeys k₁ = sortKeys k₂ := by
  haveI := strLe_isAntisymm
  exact List.eq_of_perm_of_sorted
    (((sortKeys_perm k₁).trans h).trans (sortKeys_perm k₂).symm)
    (sortKeys_sorted k₁) (sortKeys_sorted k₂)

theorem mapGet_eq_none (m : List (List Nat × Value)) (k : List Nat)
    (h : k ∉ m.map Prod.fst) : mapGet m k = none := by
  induction m with
  | nil => rfl
  | cons kv m ih =>
    obtain ⟨k', v'⟩ := kv
    simp only [List.map_cons, List.mem_cons, not_or] at h
    have hne : ¬ k' = k := fun e => h.1 e.symm
    simp [mapGet, hne, ih h.2]

theorem mapGet_of_mem (m : List (List Nat × Value)) (hnd : (m.map Prod.fst).Nodup)
    (k : List Nat) (v : Value) (h : (k, v) ∈ m) : mapGet m k = some v := by
  induction m with
  | nil => simp at h
  | cons kv m ih =>
    obtain ⟨k', v'⟩ := kv
    simp only [List.map_cons, List.nodup_cons] at hnd
    rcases List.mem_cons.1 h with h | h
    · cases h
      simp [mapGet]
    · have hne : ¬ k' = k := by
        intro e
        subst e
        exact hnd.1 (List.mem_map.2 ⟨(k', v), h, rfl⟩)
      simp [mapGet, hne, ih hnd.2 h]

theorem mem_of_mapGet (m : List (List Nat × Value)) (k : List Nat) (v : Value)
    (h : mapGet m k = some v) : (k, v) ∈ m := by
  induction m with
  | nil => simp [mapGet] at h
  | cons kv m ih =>
    obtain ⟨k', v'⟩ := kv
    unfold mapGet at h
    split at h
    · rename_i hk
      cases h
      subst hk
      exact List.mem_cons_self _ _
    · exact List.mem_cons_of_mem _ (ih h)

theorem mapGet_perm (m m' : List (List Nat × Value)) (hp : m'.Perm m)
    (hnd : (m.map Prod.fst).Nodup) (k : List Nat) : mapGet m' k = mapGet m k := by
  have hnd' : (m'.map Prod.fst).Nodup := (hp.map Prod.fst).nodup_iff.2 hnd
  cases hk : mapGet m k with
  | none =>
    apply mapGet_eq_none
    intro hmem
    obtain ⟨kv, hkv, rfl⟩ := List.mem_map.1 hmem
    have := mapGet_of_mem m hnd kv.1 kv.2 (hp.subset hkv)
    rw [hk] at this
    exact Option.noConfusion this
  | some v =>
    exact mapGet_of_mem m' hnd' k v (hp.symm.subset (mem_of_mapGet m k v hk))

theorem mapSet_of_not_mem (m : List (List Nat × Value)) (k : List Nat) (v : Value)
    (h : k ∉ m.map Prod.fst) : mapSet m k v = m ++ [(k, v)] := by
  induction m with
  | nil => rfl
  | cons kv m ih =>
    obtain ⟨k', v'⟩ := kv
    simp only [List.map_cons, List.mem_cons, not_or] at h
    have hne : ¬ k' = k := fun e => h.1 e.symm
    simp [mapSet, hne, ih h.2]

theorem foldl_mapSet_append (kvs : List (List Nat × Value)) :
    ∀ acc : List (List Nat × Value), ((acc ++ kvs).map Prod.fst).Nodup →
      kvs.foldl (fun m kv => mapSet m kv.1 kv.2) acc = acc ++ kvs := by
  induction kvs with
  | nil => intro acc _; simp
  | cons kv kvs ih =>
    intro acc hnd
    have hnot : kv.1 ∉ acc.map Prod.fst := by
      intro hmem
      rw [List.map_append, List.map_cons] at hnd
      have := (List.nodup_append.1 hnd).2.2
      exact this hmem (List.mem_cons_self _ _)
    have hnd' : (((acc ++ [kv]) ++ kvs).map Prod.fst).Nodup := by
      simpa using hnd
    rw [List.foldl_cons, mapSet_of_not_mem acc kv.1 kv.2 hnot, ih (acc ++ [kv]) hnd']
    simp

/-! ## Encoder -/

theorem encodeEntries_eq (m : List (List Nat × Value)) (ks : List (List Nat))
    (h : ∀ k ∈ ks, ∃ v, mapGet m k = some v ∧ v.isLeaf = true) :
    encodeEntries m ks
      = .ok ((ks.map (fun k => (k, (mapGet m k).getD (.str [])))).flatMap entryText) := by
  induction ks with
  | nil => rfl
  | cons k ks ih =>
    obtain ⟨v, hv, hleaf⟩ := h k (List.mem_cons_self _ _)
    have ih' := ih (fun k' hk' => h k' (List.mem_cons_of_mem _ hk'))
    cases v with
    | int n => simp [encodeEntries, hv, ih', entryText, leafText]
    | str s => simp [encodeEntries, hv, ih', entryText, leafText]
    | list xs => simp [Value.isLeaf] at hleaf
    | dict d => simp [Value.isLeaf] at hleaf

theorem encodeEntries_congr (m m' : List (List Nat × Value)) (ks : List (List Nat))
    (h : ∀ k, mapGet m' k = mapGet m k) : encodeEntries m' ks = encodeEntries m ks := by
  induction ks with
  | nil => rfl
  | cons k ks ih => simp only [encodeEntries, h k, ih]

theorem map_lookup_self (m : List (List Nat × Value)) (hnd : (m.map Prod.fst).Nodup) :
    (m.map Prod.fst).map (fun k => (k, (mapGet m k).getD (.str []))) = m := by
  rw [List.map_map]
  conv_rhs => rw [← List.map_id m]
  apply List.map_congr_left
  intro kv hkv
  have := mapGet_of_mem m hnd kv.1 kv.2 hkv
  simp [this]

theorem encodeDict_sorted_entries (m : List (List Nat × Value))
    (hnd : (m.map Prod.fst).Nodup) (hleaf : ∀ kv ∈ m, kv.2.isLeaf = true) :
    encodeDict m = .ok (dictText
      ((sortKeys (m.map Prod.fst)).map (fun k => (k, (mapGet m k).getD (.str []))))) := by
  have hall : ∀ k ∈ sortKeys (m.map Prod.fst), ∃ v, mapGet m k = some v ∧ v.isLeaf = true := by
    intro k hk
    have hk' : k ∈ m.map Prod.fst := (sortKeys_perm _).subset hk
    obtain ⟨kv, hkv, rfl⟩ := List.mem_map.1 hk'
    exact ⟨kv.2, mapGet_of_mem m hnd kv.1 kv.2 hkv, hleaf kv hkv⟩
  unfold encodeDict
  simp only [encodeEntries_eq m _ hall, dictText]
  simp

theorem encodeDict_canonical (kvs : List (List Nat × Value))
    (hsorted : (kvs.map Prod.fst).Pairwise (fun a b => strLt a b = true))
    (hleaf : ∀ kv ∈ kvs, kv.2.isLeaf = true) :
    encodeDict kvs = .ok (dictText kvs) := by
  have hnd := nodup_of_strict _ hsorted
  rw [encodeDict_sorted_entries kvs hnd hleaf, sortKeys_of_strict _ hsorted,
    map_lookup_self kvs hnd]

theorem mem_keys_iff_mapGet (m : List (List Nat × Value)) (k : List Nat) :
    k ∈ m.map Prod.fst ↔ mapGet m k ≠ none := by
  constructor
  · intro hk hnone
    induction m with
    | nil => simp at hk
    | cons kv m ih =>
      obtain ⟨k', v'⟩ := kv
      unfold mapGet at hnone
      split at hnone
      · exact Option.noConfusion hnone
      · rename_i hne
        simp only [List.map_cons, List.mem_cons] at hk
        rcases hk with h | h
        · exact hne h.symm
        · exact ih h hnone
  · intro h
    by_contra hk
    exact h (mapGet_eq_none m k hk)

theorem encodeDict_congr (m m' : List (List Nat × Value))
    (hnd : (m.map Prod.fst).Nodup) (hnd' : (m'.map Prod.fst).Nodup)
    (h : ∀ k, mapGet m' k = mapGet m k) : encodeDict m' = encodeDict m := by
  have hperm : (m'.map Prod.fst).Perm (m.map Prod.fst) := by
    rw [List.perm_ext_iff_of_nodup hnd' hnd]
    intro k
    rw [mem_keys_iff_mapGet, mem_keys_iff_mapGet, h k]
  unfold encodeDict
  simp only [sortKeys_congr _ _ hperm, encodeEntries_congr m m' _ h]

theorem decodeAll_dictText (kvs : List (List Nat × Value))
    (hleaf : ∀ kv ∈ kvs, kv.2.isLeaf = true ∧ kv.2.inRange = true)
    (hnd : (kvs.map Prod.fst).Nodup)
    (hlen : (dictText kvs).length < 2 ^ 63) :
    decodeAll (dictText kvs) = .ok (.dict kvs, (dictText kvs).length) := by
  have hl : (dictText kvs).length = (kvs.flatMap entryText).length + 2 := by
    simp [dictText]
  have hcount := flatMap_entryText_length kvs
  have hloop := decodeDict_canon kvs (2 * (dictText kvs).length + 1) [100] [] []
    hleaf (by omega) (by omega)
  have hfold := foldl_mapSet_append kvs [] (by simpa using hnd)
  rw [hfold] at hloop
  have hloop' : decodeDict (2 * (dictText kvs).length + 1) (dictText kvs) 1 []
      = .ok (.dict kvs, 1 + (kvs.flatMap entryText).length + 1) := hloop
  have hdt : determineDataType (dictText kvs) 0 = .ok (.Dictionary, 1) := by
    simp [determineDataType, dictText]
  unfold decodeAll
  rw [decode.eq_def]
  simp only [hdt, hloop']
  have hfin : 1 + (kvs.flatMap entryText).length + 1 = (dictText kvs).length := by omega
  rw [hfin]

/-! ## Claims on the bencoding codec -/

/-- C1: round trip.  For the canonical text `x` of a dictionary whose values are
integers in the 64-bit signed range and byte strings, with keys strictly
ascending in byte order (and `x` short enough to be a Go string), decoding `x`
from cursor 0 succeeds with that dictionary, the cursor ends at `len(x)`, and
`encodeDict` of the decoded map returns `x` byte for byte, in whatever order
the map is enumerated. -/
theorem decode_encodeDict_roundtrip (kvs : List (List Nat × Value))
    (hleaf : ∀ kv ∈ kvs, kv.2.isLeaf = true ∧ kv.2.inRange = true)
    (hsorted : (kvs.map Prod.fst).Pairwise (fun a b => strLt a b = true))
    (hlen : (dictText kvs).length < 2 ^ 63) :
    decodeAll (dictText kvs) = .ok (.dict kvs, (dictText kvs).length) ∧
    ∀ m, m.Perm kvs → encodeDict m = .ok (dictText kvs) := by
  have hnd := nodup_of_strict _ hsorted
  refine ⟨decodeAll_dictText kvs hleaf hnd hlen, ?_⟩
  intro m hm
  have hnd' : (m.map Prod.fst).Nodup := (hm.map Prod.fst).nodup_iff.2 hnd
  rw [encodeDict_congr kvs m hnd hnd' (mapGet_perm kvs m hm hnd)]
  exact encodeDict_canonical kvs hsorted (fun kv h => (hleaf kv h).1)

/-- C1 at `d3:cow3:moo4:spam4:eggse`: the 24 bytes decode to `{cow: moo, spam: eggs}`
and re-encode to the identical 24 bytes. -/
theorem decode_encodeDict_roundtrip_witness :
    (bytes "d3:cow3:moo4:spam4:eggse").length = 24 ∧
    decodeAll (bytes "d3:cow3:moo4:spam4:eggse")
      = .ok (.dict [(bytes "cow", .str (bytes "moo")), (bytes "spam", .str (bytes "eggs"))], 24) ∧
    ∀ m, m.Perm [(bytes "cow", Value.str (bytes "moo")), (bytes "spam", .str (bytes "eggs"))] →
      encodeDict m = .ok (bytes "d3:cow3:moo4:spam4:eggse") :=
  ⟨by decide,
   decode_encodeDict_roundtrip
    [(bytes "cow", .str (bytes "moo")), (bytes "spam", .str (bytes "eggs"))]
    (by decide) (by decide) (by decide)⟩

/-- C2: for a map whose values are integers or byte strings, `encodeDict`
returns `d`, then the entries `<len(key)>:<key>` followed by `i<n>e` or
`<len(s)>:<s>` arranged with keys strictly ascending in byte order, then `e`;
the output is the same for every map with the same key/value mapping, hence
for every enumeration order of the keys. -/
theorem encodeDict_format (m : List (List Nat × Value))
    (hnd : (m.map Prod.fst).Nodup) (hleaf : ∀ kv ∈ m, kv.2.isLeaf = true) :
    (∃ sorted : List (List Nat × Value),
      sorted.Perm m ∧
      (sorted.map Prod.fst).Pairwise (fun a b => strLt a b = true) ∧
      encodeDict m = .ok (100 :: (sorted.flatMap (fun kv =>
        natToDecimal kv.1.length ++ 58 :: (kv.1 ++ leafText kv.2)) ++ [101]))) ∧
    (∀ m', (m'.map Prod.fst).Nodup → (∀ k, mapGet m' k = mapGet m k) →
      encodeDict m' = encodeDict m) ∧
    (∀ m', m'.Perm m → encodeDict m' = encodeDict m) := by
  refine ⟨⟨(sortKeys (m.map Prod.fst)).map (fun k => (k, (mapGet m k).getD (.str []))),
    ?_, ?_, ?_⟩, ?_, ?_⟩
  · have h1 := ((sortKeys_perm (m.map Prod.fst)).map
      (fun k => (k, (mapGet m k).getD (.str []))))
    rw [map_lookup_self m hnd] at h1
    exact h1
  · rw [List.map_map]
    have hid : (Prod.fst ∘ fun k : List Nat => (k, (mapGet m k).getD (.str []))) = id := rfl
    rw [hid, List.map_id]
    exact sortKeys_strict _ hnd
  · exact encodeDict_sorted_entries m hnd hleaf
  · intro m' hnd' h
    exact encodeDict_congr m m' hnd hnd' h
  · intro m' hp
    exact encodeDict_congr m m' hnd ((hp.map Prod.fst).nodup_iff.2 hnd) (mapGet_perm m m' hp hnd)

/-- C2 at the map `{spam: -6881, cow: moo}` enumerated with `spam` first: the
output is `d3:cow3:moo4:spami-6881ee`. -/
theorem encodeDict_format_witness :
    encodeDict [(bytes "spam", .int (-6881)), (bytes "cow", .str (bytes "moo"))]
      = .ok (bytes "d3:cow3:moo4:spami-6881ee") ∧
    encodeDict [(bytes "cow", .str (bytes "moo")), (bytes "spam", .int (-6881))]
      = encodeDict [(bytes "spam", .int (-6881)), (bytes "cow", .str (bytes "moo"))] :=
  ⟨rfl, (encodeDict_format
    [(bytes "spam", .int (-6881)), (bytes "cow", .str (bytes "moo"))]
    (by decide) (by decide)).2.2 _ (List.Perm.swap _ _ _)⟩

/-! ## Claims on the peer wire protocol -/

/-- C4: for every piece index `i` and every bitfield payload, `hasPiece i payload`
is true exactly when `i / 8 < len(payload)` and bit `7 - i % 8` of byte `i / 8`
is 1 (most significant bit first); it is false for every index at or beyond
`8 * len(payload)`; and for the payload `[0b10100000, 0b00000001]` it is true
for 0, 2, 15 and false for 1, 16. -/
theorem hasPiece_spec :
    (∀ (i : Nat) (payload : List Nat),
      hasPiece i payload = true ↔
        i / 8 < payload.length ∧ (payload.getD (i / 8) 0).testBit (7 - i % 8) = true) ∧
    (∀ (i : Nat) (payload : List Nat), 8 * payload.length ≤ i → hasPiece i payload = false) ∧
    (hasPiece 0 [0b10100000, 0b00000001] = true ∧
     hasPiece 1 [0b10100000, 0b00000001] = false ∧
     hasPiece 2 [0b10100000, 0b00000001] = true ∧
     hasPiece 15 [0b10100000, 0b00000001] = true ∧
     hasPiece 16 [0b10100000, 0b00000001] = false) := by
  refine ⟨?_, ?_, by decide⟩
  · intro i payload
    unfold hasPiece
    simp only
    by_cases h : payload.length ≤ i / 8
    · simp [h]
    · have h' : i / 8 < payload.length := by omega
      simp only [h, if_false, h', true_and, Nat.testBit_to_div_mod, Nat.and_one_is_mod,
        Nat.shiftRight_eq_div_pow, beq_iff_eq, decide_eq_true_eq]
  · intro i payload hi
    unfold hasPiece
    have h : payload.length ≤ i / 8 := by omega
    simp [h]

/-- C4 at index 16 of the two-byte payload `[0b10100000, 0b00000001]`: out of range. -/
theorem hasPiece_spec_witness :
    8 * [0b10100000, 0b00000001].length ≤ 16 ∧ hasPiece 16 [0b10100000, 0b00000001] = false :=
  ⟨by decide, hasPiece_spec.2.1 16 [0b10100000, 0b00000001] (by decide)⟩


theorem ceil_div_cases (fl pl : Nat) (hpl : 0 < pl) :
    (fl % pl = 0 ∧ (fl + pl - 1) / pl = fl / pl) ∨
    (fl % pl ≠ 0 ∧ (fl + pl - 1) / pl = fl / pl + 1) := by
  have hq := Nat.div_add_mod fl pl
  have hr := Nat.mod_lt fl hpl
  have hc : fl / pl * pl = pl * (fl / pl) := Nat.mul_comm _ _
  have hc1 : (fl / pl + 1) * pl = pl * (fl / pl) + pl := by rw [Nat.add_mul, hc, Nat.one_mul]
  have hc2 : (fl / pl + 1 + 1) * pl = pl * (fl / pl) + pl + pl := by
    rw [Nat.add_mul, hc1, Nat.one_mul]
  by_cases h0 : fl % pl = 0
  · left
    refine ⟨h0, Nat.div_eq_of_lt_le ?_ ?_⟩
    · rw [hc]; omega
    · rw [hc1]; omega
  · right
    refine ⟨h0, Nat.div_eq_of_lt_le ?_ ?_⟩
    · rw [hc1]; omega
    · rw [hc2]; omega

theorem sum_map_range_const (f : Nat → Nat) (c : Nat) :
    ∀ M : Nat, (∀ p, p < M → f p = c) → ((List.range M).map f).sum = M * c := by
  intro M
  induction M with
  | zero => intro _; simp
  | succ M ih =>
    intro h
    rw [List.range_succ, List.map_append, List.sum_append, ih (fun p hp => h p (by omega))]
    simp [h M (Nat.lt_succ_self M), Nat.succ_mul]

/-- C5: for metadata with `pieceLength > 0`, `fileLength > 0` and
`N = len(piecesHash) = ceil(fileLength / pieceLength)`, the piece length that
`downloadPiece` uses for index `p < N` is `pieceLength` when `p < N - 1` or
`fileLength` is an exact multiple of `pieceLength`, and
`fileLength - pieceLength * (N - 1)` for the last piece otherwise; the lengths
over all `p < N` sum to `fileLength`. -/
theorem downloadPieceLength_spec (metaInfo : MetaInfo)
    (hpl : 0 < metaInfo.pieceLength) (hfl : 0 < metaInfo.fileLength)
    (hN : metaInfo.piecesHash.length
      = (metaInfo.fileLength + metaInfo.pieceLength - 1) / metaInfo.pieceLength) :
    ∃ len : Nat → Nat,
      (∀ p, p < metaInfo.piecesHash.length → downloadPieceLength metaInfo p = .ok (len p)) ∧
      (∀ p, p < metaInfo.piecesHash.length →
        len p = if p + 1 < metaInfo.piecesHash.length ∨
                   metaInfo.fileLength % metaInfo.pieceLength = 0
                then metaInfo.pieceLength
                else metaInfo.fileLength
                      - metaInfo.pieceLength * (metaInfo.piecesHash.length - 1)) ∧
      ((List.range metaInfo.piecesHash.length).map len).sum = metaInfo.fileLength := by
  obtain ⟨announce, fl, pl, infoHash, piecesHash⟩ := metaInfo
  simp only at hpl hfl hN ⊢
  have hq := Nat.div_add_mod fl pl
  have hr := Nat.mod_lt fl hpl
  have hne : pl ≠ 0 := by omega
  have hcases := ceil_div_cases fl pl hpl
  rw [← hN] at hcases
  clear hN
  unfold downloadPieceLength
  simp only [hne, if_false]
  generalize piecesHash.length = N at hcases ⊢
  generalize fl / pl = q at hq hcases
  generalize fl % pl = r at hq hr hcases ⊢
  refine ⟨fun p => if p + 1 < N ∨ r = 0 then pl else fl - pl * (N - 1), ?_, fun _ _ => rfl, ?_⟩
  · intro p hp
    show _ = Except.ok (if p + 1 < N ∨ r = 0 then pl else fl - pl * (N - 1))
    rcases hcases with ⟨h0, hdiv⟩ | ⟨h0, hdiv⟩
    · simp [h0]
    · by_cases hlast : p + 1 = N
      · have hnot : ¬ (p + 1 < N ∨ r = 0) := by
          intro h; rcases h with h | h
          · omega
          · exact h0 h
        have hN1 : N - 1 = q := by omega
        rw [if_pos hlast, if_pos h0]
        rw [if_neg hnot, hN1]
        congr 1
        omega
      · have hlt : p + 1 < N := by omega
        simp [hlast, hlt]
  · obtain ⟨M, hM⟩ : ∃ M, N = M + 1 := by
      refine ⟨N - 1, ?_⟩
      rcases hcases with ⟨h0, hdiv⟩ | ⟨h0, hdiv⟩
      · have : 0 < q := by
          rcases Nat.eq_zero_or_pos q with hz | hz
          · rw [hz, h0] at hq; simp at hq; omega
          · exact hz
        omega
      · omega
    subst hM
    rw [List.range_succ, List.map_append, List.sum_append]
    rw [sum_map_range_const _ pl M (fun p hp => by
      have : p + 1 < M + 1 := by omega
      simp [this])]
    simp only [List.map_cons, List.map_nil, List.sum_cons, List.sum_nil, Nat.add_zero,
      Nat.lt_irrefl, false_or, Nat.add_sub_cancel]
    have hc : M * pl = pl * M := Nat.mul_comm _ _
    rcases hcases with ⟨h0, hdiv⟩ | ⟨h0, hdiv⟩
    · subst hdiv
      rw [h0, Nat.mul_add] at hq
      simp only [h0, if_true]
      omega
    · have hM' : q = M := by omega
      subst hM'
      simp only [h0, if_false]
      omega

/-- C5 at `pieceLength = 32768`, `fileLength = 100000`, four pieces: the last
piece has length `100000 - 32768 * 3 = 1696`. -/
theorem downloadPieceLength_spec_witness :
    ∃ len : Nat → Nat,
      (∀ p, p < 4 → downloadPieceLength ⟨[], 100000, 32768, [], [[], [], [], []]⟩ p
        = .ok (len p)) ∧
      (∀ p, p < 4 → len p = if p + 1 < 4 ∨ 100000 % 32768 = 0 then 32768
        else 100000 - 32768 * (4 - 1)) ∧
      ((List.range 4).map len).sum = 100000 :=
  downloadPieceLength_spec ⟨[], 100000, 32768, [], [[], [], [], []]⟩
    (by decide) (by decide) (by decide)

/-! ## Byte order -/

theorem or_shiftLeft_eq (x a i : Nat) (hx : x < 2 ^ i) : x ||| (a <<< i) = a * 2 ^ i + x := by
  rw [Nat.shiftLeft_eq, Nat.lor_comm, Nat.mul_comm, ← Nat.mul_add_lt_is_or hx]

theorem Uint16_eq (b0 b1 : Nat) (rest : List Nat) (h1 : b1 < 256) :
    Uint16 (b0 :: b1 :: rest) = 256 * b0 + b1 := by
  have := or_shiftLeft_eq b1 b0 8 (by omega)
  simp only [Uint16, List.getD_cons_zero, List.getD_cons_succ, this]
  omega

theorem Uint32_eq (b0 b1 b2 b3 : Nat) (h1 : b1 < 256) (h2 : b2 < 256) (h3 : b3 < 256) :
    Uint32 [b0, b1, b2, b3] = b0 * 16777216 + b1 * 65536 + b2 * 256 + b3 := by
  have e1 := or_shiftLeft_eq b3 b2 8 (by omega)
  have e2 := or_shiftLeft_eq (b2 * 2 ^ 8 + b3) b1 16 (by omega)
  have e3 := or_shiftLeft_eq (b1 * 2 ^ 16 + (b2 * 2 ^ 8 + b3)) b0 24 (by omega)
  simp only [Uint32, List.getD_cons_zero, List.getD_cons_succ, e1, e2, e3]
  omega

theorem Uint32_AppendUint32 (v : Nat) (hv : v < 2 ^ 32) : Uint32 (AppendUint32 [] v) = v := by
  simp only [AppendUint32, List.nil_append, Nat.shiftRight_eq_div_pow]
  rw [Uint32_eq _ _ _ _ (Nat.mod_lt _ (by omega)) (Nat.mod_lt _ (by omega))
    (Nat.mod_lt _ (by omega))]
  omega

theorem AppendUint32_length (b : List Nat) (v : Nat) :
    (AppendUint32 b v).length = b.length + 4 := by
  simp [AppendUint32]

/-! ## Compact peer list -/

/-- C9: for every `peers` byte string the loop of `requestPeers` yields
`floor(len / 6)` entries, the `i`-th being the text `a.b.c.d:p` with `a`, `b`,
`c`, `d` the decimal values of bytes `6i .. 6i+3` and
`p = 256 * byte[6i+4] + byte[6i+5]`. -/
theorem peersList_spec (peers : List Nat) (hbytes : ∀ b ∈ peers, b < 256) :
    (peersList peers).length = peers.length / 6 ∧
    ∀ i, i < peers.length / 6 →
      (peersList peers).get? i = some
        (natToDecimal (peers.getD (6 * i) 0) ++ 46 ::
          (natToDecimal (peers.getD (6 * i + 1) 0) ++ 46 ::
            (natToDecimal (peers.getD (6 * i + 2) 0) ++ 46 ::
              (natToDecimal (peers.getD (6 * i + 3) 0) ++ 58 ::
                natToDecimal (256 * peers.getD (6 * i + 4) 0 + peers.getD (6 * i + 5) 0))))) := by
  refine ⟨by simp [peersList], ?_⟩
  intro i hi
  have hlen : i * 6 + 6 ≤ peers.length := by omega
  -- the record is six consecutive bytes
  obtain ⟨pre, rec, post, hsplit, hpre, hrec⟩ :
      ∃ pre rec post, peers = pre ++ rec ++ post ∧ pre.length = i * 6 ∧ rec.length = 6 := by
    refine ⟨peers.take (i * 6), (peers.drop (i * 6)).take 6, (peers.drop (i * 6)).drop 6,
      ?_, ?_, ?_⟩
    · rw [List.append_assoc, List.take_append_drop, List.take_append_drop]
    · simp; omega
    · simp; omega
  match rec, hrec with
  | [b0, b1, b2, b3, b4, b5], _ =>
    have hb5 : b5 < 256 := hbytes b5 (by rw [hsplit]; simp)
    have hslice : (peers.drop (i * 6)).take 6 = [b0, b1, b2, b3, b4, b5] := by
      rw [hsplit, List.append_assoc, ← hpre, List.drop_left]
      simp
    have hget : ∀ j, j < 6 → peers.getD (6 * i + j) 0 = [b0, b1, b2, b3, b4, b5].getD j 0 := by
      intro j hj
      have h6 : 6 * i + j = pre.length + j := by omega
      rw [hsplit, List.append_assoc, h6]
      simp only [List.getD_eq_getElem?_getD]
      rw [List.getElem?_append_right (by omega)]
      simp only [Nat.add_sub_cancel_left]
      rw [List.getElem?_append_left (by simpa using hj)]
    have g0 := hget 0 (by omega)
    have g1 := hget 1 (by omega)
    have g2 := hget 2 (by omega)
    have g3 := hget 3 (by omega)
    have g4 := hget 4 (by omega)
    have g5 := hget 5 (by omega)
    simp only [Nat.add_zero, List.getD_cons_zero, List.getD_cons_succ] at g0 g1 g2 g3 g4 g5
    rw [g0, g1, g2, g3, g4, g5]
    simp only [peersList, List.get?_eq_getElem?, List.getElem?_map, List.getElem?_range hi,
      Option.map_some', hslice, peerAddr, List.take, List.drop, List.getD_cons_zero,
      List.getD_cons_succ, Uint16_eq b4 b5 [] hb5]

/-- C9 at the record `[10, 0, 0, 1, 0x1A, 0xE1]`: it yields `10.0.0.1:6881`, alone
and inside a tracker response body. -/
theorem peersList_spec_witness :
    (peersList [10, 0, 0, 1, 0x1A, 0xE1]).get? 0 = some (bytes "10.0.0.1:6881") ∧
    requestPeers (bytes "d5:peers6:" ++ [10, 0, 0, 1, 0x1A, 0xE1] ++ bytes "e")
      = .ok [bytes "10.0.0.1:6881"] :=
  ⟨(peersList_spec [10, 0, 0, 1, 0x1A, 0xE1] (by decide)).2 0 (by decide), rfl⟩

/-! ## Message framing -/

theorem Uint32_zero : Uint32 [0, 0, 0, 0] = 0 := by decide

theorem receiveData_append (data rest : List Nat) (outbox : List (List Nat)) (writes n : Nat)
    (hn : data.length = n) :
    receiveData ⟨data ++ rest, outbox, writes⟩ n = (.ok data, ⟨rest, outbox, writes⟩) := by
  subst hn
  simp [receiveData]

/-- One frame after `k` keep-alives is returned whenever the budget exceeds `k`. -/
theorem receivePeerMsgLoop_keepAlives (L id : Nat) (payload rest : List Nat)
    (outbox : List (List Nat)) (writes : Nat)
    (hL1 : 1 ≤ L) (hL2 : L < 2 ^ 32) (hp : payload.length = L - 1) :
    ∀ (k fuel : Nat), k < fuel →
      receivePeerMsgLoop fuel
        ⟨(List.replicate k [0, 0, 0, 0]).flatten ++ (AppendUint32 [] L ++ id :: payload) ++ rest,
          outbox, writes⟩
        = (.ok ⟨L, id, payload⟩, ⟨rest, outbox, writes⟩) := by
  intro k
  induction k with
  | zero =>
    intro fuel hfuel
    obtain ⟨f, rfl⟩ : ∃ f, fuel = f + 1 := ⟨fuel - 1, by omega⟩
    have hL0 : L ≠ 0 := by omega
    have h1 := receiveData_append (AppendUint32 [] L) (id :: payload ++ rest) outbox writes 4
      (by simp [AppendUint32])
    have h2 := receiveData_append (id :: payload) rest outbox writes L
      (by simp [hp]; omega)
    have hshape : (List.replicate 0 [0, 0, 0, 0]).flatten ++ (AppendUint32 [] L ++ id :: payload)
        ++ rest = AppendUint32 [] L ++ (id :: payload ++ rest) := by
      simp
    rw [hshape]
    unfold receivePeerMsgLoop
    simp only [h1, Uint32_AppendUint32 L hL2, hL0, if_false]
    simp only [h2, List.getD_cons_zero, List.drop_succ_cons, List.drop_zero]
    by_cases h1L : L = 1
    · have hnil : payload = [] := List.length_eq_zero.1 (by omega)
      simp [h1L, hnil]
    · simp [h1L]
  | succ k ih =>
    intro fuel hfuel
    obtain ⟨f, rfl⟩ : ∃ f, fuel = f + 1 := ⟨fuel - 1, by omega⟩
    have h1 := receiveData_append [0, 0, 0, 0]
      ((List.replicate k [0, 0, 0, 0]).flatten ++ (AppendUint32 [] L ++ id :: payload) ++ rest)
      outbox writes 4 rfl
    have hshape : (List.replicate (k + 1) [0, 0, 0, 0]).flatten
        ++ (AppendUint32 [] L ++ id :: payload) ++ rest
        = [0, 0, 0, 0] ++ ((List.replicate k [0, 0, 0, 0]).flatten
            ++ (AppendUint32 [] L ++ id :: payload) ++ rest) := by
      simp [List.replicate_succ]
    rw [hshape]
    unfold receivePeerMsgLoop
    simp only [h1, Uint32_zero, if_true]
    exact ih f (by omega)

/-- C10: with the socket a byte stream, for every `k` and every frame
`[u32 BE length L ≥ 1][id][L - 1 payload bytes]`, `receivePeerMsg` applied to `k`
zero-length frames followed by the frame and any remaining bytes returns the
message `{L, id, payload}`, leaves exactly the remaining bytes unread (so it
consumed `4k + 4 + L` bytes), and returns the same message as on the stream
without the keep-alives. -/
theorem receivePeerMsg_keepAlives (k L id : Nat) (payload rest : List Nat)
    (outbox : List (List Nat)) (writes : Nat)
    (hL1 : 1 ≤ L) (hL2 : L < 2 ^ 32) (hp : payload.length = L - 1) :
    receivePeerMsg
        ⟨(List.replicate k [0, 0, 0, 0]).flatten ++ (AppendUint32 [] L ++ id :: payload) ++ rest,
          outbox, writes⟩
      = (.ok ⟨L, id, payload⟩, ⟨rest, outbox, writes⟩) ∧
    ((List.replicate k [0, 0, 0, 0]).flatten ++ (AppendUint32 [] L ++ id :: payload) ++ rest).length
      = (4 * k + 4 + L) + rest.length ∧
    (receivePeerMsg
        ⟨(List.replicate k [0, 0, 0, 0]).flatten ++ (AppendUint32 [] L ++ id :: payload) ++ rest,
          outbox, writes⟩).1
      = (receivePeerMsg ⟨(AppendUint32 [] L ++ id :: payload) ++ rest, outbox, writes⟩).1 := by
  have hlen : ((List.replicate k [0, 0, 0, 0]).flatten
      ++ (AppendUint32 [] L ++ id :: payload) ++ rest).length = (4 * k + 4 + L) + rest.length := by
    have hflat : ((List.replicate k [0, 0, 0, 0]).flatten).length = 4 * k := by
      induction k with
      | zero => simp
      | succ k ih => simp [List.replicate_succ, ih]; omega
    simp only [List.length_append, hflat, AppendUint32_length, List.length_cons, hp,
      List.length_nil]
    omega
  have hk : receivePeerMsg
      ⟨(List.replicate k [0, 0, 0, 0]).flatten ++ (AppendUint32 [] L ++ id :: payload) ++ rest,
        outbox, writes⟩ = (.ok ⟨L, id, payload⟩, ⟨rest, outbox, writes⟩) := by
    unfold receivePeerMsg
    apply receivePeerMsgLoop_keepAlives L id payload rest outbox writes hL1 hL2 hp k
    simp only [hlen]
    omega
  have h0 : receivePeerMsg ⟨(AppendUint32 [] L ++ id :: payload) ++ rest, outbox, writes⟩
      = (.ok ⟨L, id, payload⟩, ⟨rest, outbox, writes⟩) := by
    have := receivePeerMsgLoop_keepAlives L id payload rest outbox writes hL1 hL2 hp 0
      (((AppendUint32 [] L ++ id :: payload) ++ rest).length / 4 + 1) (by omega)
    simpa [receivePeerMsg] using this
  exact ⟨hk, hlen, by rw [hk, h0]⟩

/-- C10 at two keep-alives before a `Have` frame (`L = 5`, id 4, payload
`00 00 00 07`) followed by one more byte: the message is returned and the
extra byte stays unread. -/
theorem receivePeerMsg_keepAlives_witness :
    receivePeerMsg ⟨[0, 0, 0, 0, 0, 0, 0, 0, 0, 0, 0, 5, 4, 0, 0, 0, 7, 9], [], 0⟩
      = (.ok ⟨5, 4, [0, 0, 0, 7]⟩, ⟨[9], [], 0⟩) :=
  (receivePeerMsg_keepAlives 2 5 4 [0, 0, 0, 7] [9] [] 0 (by decide) (by decide) (by decide)).1

/-! ## Claims on the sessions and the coordinator -/

/-- Every pass of the job loop that does not terminate the process makes exactly
one channel send: the index goes back on `jobQueue`, or its piece, whose digest
matches, goes out on `finishedJobs`. -/
theorem startJobLoopBody_cases (sha1 : List Nat → List Nat) (metaInfo : MetaInfo)
    (bitfieldPayload : List Nat) (peerConn : Conn) (badHashErrors pieceIndex : Nat) :
    (∃ f, (startJobLoopBody sha1 metaInfo bitfieldPayload peerConn badHashErrors pieceIndex).control
        = .exit f ∧
      (startJobLoopBody sha1 metaInfo bitfieldPayload peerConn badHashErrors pieceIndex).sends
        = []) ∨
    ((∀ f, (startJobLoopBody sha1 metaInfo bitfieldPayload peerConn badHashErrors
        pieceIndex).control ≠ .exit f) ∧
      ((startJobLoopBody sha1 metaInfo bitfieldPayload peerConn badHashErrors pieceIndex).sends
          = [.jobQueue pieceIndex] ∨
        ∃ pieceData conn1,
          downloadPiece peerConn metaInfo pieceIndex = (.ok pieceData, conn1) ∧
          metaInfo.piecesHash.get? pieceIndex = some (sha1 pieceData) ∧
          (startJobLoopBody sha1 metaInfo bitfieldPayload peerConn badHashErrors pieceIndex).sends
            = [.finishedJobs ⟨pieceIndex, pieceData⟩])) := by
  unfold startJobLoopBody
  by_cases hbad : 5 ≤ badHashErrors
  · simp [hbad]
  · by_cases hhas : hasPiece pieceIndex bitfieldPayload = true
    · simp only [hbad, if_false, hhas, Bool.not_true, Bool.false_eq_true]
      rcases hdl : downloadPiece peerConn metaInfo pieceIndex with ⟨res, conn1⟩
      cases res with
      | error e => cases e <;> simp
      | ok pieceData =>
        cases hget : metaInfo.piecesHash.get? pieceIndex with
        | none => simp
        | some expectedHash =>
          by_cases hne : expectedHash = sha1 pieceData
          · simp [hne]
          · simp [hne]
    · simp [hbad, hhas]

/-- C3: every `JobResult{pieceIndex, data}` that a pass of the job loop of
`startJob` sends on `finishedJobs` carries the index the pass received and
satisfies `SHA1(data) == piecesHash[pieceIndex]`; when the downloaded piece has
a different digest, the pass sends nothing but the index, back on `jobQueue`. -/
theorem startJobLoopBody_publishes_verified (sha1 : List Nat → List Nat) (metaInfo : MetaInfo)
    (bitfieldPayload : List Nat) (peerConn : Conn) (badHashErrors pieceIndex : Nat) :
    (∀ jobResult : JobResult,
      ChanSend.finishedJobs jobResult ∈
        (startJobLoopBody sha1 metaInfo bitfieldPayload peerConn badHashErrors pieceIndex).sends →
      jobResult.pieceIndex = pieceIndex ∧
      metaInfo.piecesHash.get? jobResult.pieceIndex = some (sha1 jobResult.data)) ∧
    (∀ (pieceData : List Nat) (conn1 : Conn) (expectedHash : List Nat),
      downloadPiece peerConn metaInfo pieceIndex = (.ok pieceData, conn1) →
      metaInfo.piecesHash.get? pieceIndex = some expectedHash →
      expectedHash ≠ sha1 pieceData →
      (startJobLoopBody sha1 metaInfo bitfieldPayload peerConn badHashErrors pieceIndex).sends
        = [.jobQueue pieceIndex]) := by
  constructor
  · intro jobResult hmem
    rcases startJobLoopBody_cases sha1 metaInfo bitfieldPayload peerConn badHashErrors pieceIndex
      with ⟨f, _, hs⟩ | ⟨_, hs | ⟨pieceData, conn1, _, hhash, hs⟩⟩
    · rw [hs] at hmem; simp at hmem
    · rw [hs] at hmem; simp at hmem
    · rw [hs] at hmem
      simp only [List.mem_singleton, ChanSend.finishedJobs.injEq] at hmem
      subst hmem
      exact ⟨rfl, hhash⟩
  · intro pieceData conn1 expectedHash hdl hget hne
    rw [List.get?_eq_getElem?] at hget
    unfold startJobLoopBody
    by_cases hbad : 5 ≤ badHashErrors
    · simp [hbad]
    · by_cases hhas : hasPiece pieceIndex bitfieldPayload = true
      · simp [hbad, hhas, hdl, hget, hne]
      · simp [hbad, hhas]

/-- C3 on a one-piece file of three bytes whose peer sends the bytes `1 2 3`,
with the byte sum as a stand-in digest: the digest `[6]` differs from the
expected `[5]`, so index 0 goes back on the queue and nothing is published. -/
theorem startJobLoopBody_publishes_verified_witness :
    (startJobLoopBody (fun d => [d.sum % 256]) ⟨[], 3, 3, [], [[5]]⟩ [128]
      ⟨[0, 0, 0, 12, 7, 0, 0, 0, 0, 0, 0, 0, 0, 1, 2, 3], [], 1⟩ 0 0).sends
      = [.jobQueue 0] :=
  (startJobLoopBody_publishes_verified (fun d => [d.sum % 256]) ⟨[], 3, 3, [], [[5]]⟩ [128]
    ⟨[0, 0, 0, 12, 7, 0, 0, 0, 0, 0, 0, 0, 0, 1, 2, 3], [], 1⟩ 0 0).2
    [1, 2, 3] ⟨[], [[0, 0, 0, 13, 6, 0, 0, 0, 0, 0, 0, 0, 0, 0, 0, 0, 3]], 0⟩ [5]
    rfl rfl (by decide)

theorem filterMap_pieceIndex_set (l : List Session) :
    ∀ (k : Nat) (s : Session), l.get? k = some s →
      ∃ pre post : List Nat,
        l.filterMap (fun s => s.pieceIndex) = pre ++ s.pieceIndex.toList ++ post ∧
        ∀ s' : Session,
          (l.set k s').filterMap (fun s => s.pieceIndex) = pre ++ s'.pieceIndex.toList ++ post := by
  induction l with
  | nil => intro k s h; simp at h
  | cons a l ih =>
    intro k s h
    cases k with
    | zero =>
      simp only [List.get?_cons_zero, Option.some.injEq] at h
      subst h
      refine ⟨[], l.filterMap (fun s => s.pieceIndex), ?_, ?_⟩
      · cases hp : a.pieceIndex <;> simp [List.filterMap_cons, hp]
      · intro s'
        cases hp : s'.pieceIndex <;> simp [List.filterMap_cons, hp]
    | succ k =>
      simp only [List.get?_cons_succ] at h
      obtain ⟨pre, post, h1, h2⟩ := ih k s h
      refine ⟨a.pieceIndex.toList ++ pre, post, ?_, ?_⟩
      · cases hp : a.pieceIndex <;> simp [List.filterMap_cons, hp, h1]
      · intro s'
        cases hp : a.pieceIndex <;> simp [List.filterMap_cons, hp, h2]

/-- A step of a session only moves a piece index between the queue, the
session and the delivered results. -/
theorem step_indices (sha1 : List Nat → List Nat) (metaInfo : MetaInfo) (sys sys' : Pipeline)
    (k : Nat) (h : Pipeline.step sha1 metaInfo sys k = some sys') :
    sys'.indices.Perm sys.indices := by
  unfold Pipeline.step at h
  cases hs : sys.sessions.get? k with
  | none => rw [hs] at h; simp at h
  | some s =>
    rw [hs] at h
    simp only at h
    by_cases hrun : s.running = true
    · simp only [hrun, Bool.not_true, Bool.false_eq_true, if_false] at h
      cases hp : s.pieceIndex with
      | none =>
        rw [hp] at h
        simp only at h
        cases hq : sys.jobQueue with
        | nil =>
          rw [hq] at h
          simp only at h
          split at h
          · simp only [Option.some.injEq] at h
            subst h
            obtain ⟨pre, post, h1, h2⟩ := filterMap_pieceIndex_set sys.sessions k s hs
            simp only [Pipeline.indices, h1, h2, hp, hq]
            exact List.Perm.refl _
          · simp at h
        | cons i rest =>
          rw [hq] at h
          simp only [Option.some.injEq] at h
          subst h
          obtain ⟨pre, post, h1, h2⟩ := filterMap_pieceIndex_set sys.sessions k s hs
          simp only [Pipeline.indices, h1, h2, hp, hq, Option.toList]
          rw [List.perm_iff_count]
          intro a
          simp only [List.count_append, List.count_cons, List.count_nil]
          omega
      | some i =>
        rw [hp] at h
        simp only at h
        obtain ⟨pre, post, h1, h2⟩ := filterMap_pieceIndex_set sys.sessions k s hs
        rcases startJobLoopBody_cases sha1 metaInfo s.bitfieldPayload s.peerConn s.badHashErrors i
          with ⟨f, hc, _⟩ | ⟨hc, hsend⟩
        · rw [hc] at h; simp at h
        · split at h
          · rename_i f hf
            exact absurd hf (hc f)
          · simp only [Option.some.injEq] at h
            subst h
            rcases hsend with hsend | ⟨pieceData, conn1, _, _, hsend⟩
            · rw [hsend]
              simp only [List.foldl_cons, List.foldl_nil, Pipeline.deliver, Pipeline.indices,
                h1, h2, hp, Option.toList]
              rw [List.perm_iff_count]
              intro a
              simp only [List.count_append, List.count_cons, List.count_nil]
              omega
            · rw [hsend]
              simp only [List.foldl_cons, List.foldl_nil, Pipeline.deliver, Pipeline.indices,
                h1, h2, hp, Option.toList, List.map_append, List.map_cons, List.map_nil]
              rw [List.perm_iff_count]
              intro a
              simp only [List.count_append, List.count_cons, List.count_nil]
              omega
    · simp [hrun] at h

theorem run_indices (sha1 : List Nat → List Nat) (metaInfo : MetaInfo) (schedule : List Nat) :
    ∀ sys sys' : Pipeline, Pipeline.run sha1 metaInfo sys schedule = some sys' →
      sys'.indices.Perm sys.indices := by
  induction schedule with
  | nil =>
    intro sys sys' h
    simp only [Pipeline.run, Option.some.injEq] at h
    subst h
    exact List.Perm.refl _
  | cons k schedule ih =>
    intro sys sys' h
    unfold Pipeline.run at h
    cases hstep : Pipeline.step sha1 metaInfo sys k with
    | none => rw [hstep] at h; simp at h
    | some sys1 =>
      rw [hstep] at h
      exact (ih sys1 sys' h).trans (step_indices sha1 metaInfo sys sys1 k hstep)

theorem init_indices (metaInfo : MetaInfo) (sessions : List Session) :
    (Pipeline.init metaInfo sessions).indices = List.range metaInfo.piecesHash.length := by
  have hnone : ∀ l : List Session,
      (l.map (fun s => { s with pieceIndex := none })).filterMap (fun s => s.pieceIndex) = [] := by
    intro l
    induction l with
    | nil => rfl
    | cons a l ih => simp [List.filterMap_cons, ih]
  simp [Pipeline.indices, Pipeline.init, hnone]

/-- C8: job conservation.  From the state `main` sets up (indices `0 .. N-1`
queued once each), after any sequence of session steps none of which
terminates the process, every piece index is in exactly one of the job queue,
a session, or the results delivered to the coordinator; hence the delivered
indices are pairwise distinct.  On every exit path of a pass of the job loop
that does not terminate the process, the index taken is sent exactly once:
back on `jobQueue` or, with its piece, on `finishedJobs`. -/
theorem pipeline_conservation (sha1 : List Nat → List Nat) (metaInfo : MetaInfo)
    (sessions : List Session) (schedule : List Nat) (sys : Pipeline)
    (hrun : Pipeline.run sha1 metaInfo (Pipeline.init metaInfo sessions) schedule = some sys) :
    sys.indices.Perm (List.range metaInfo.piecesHash.length) ∧
    sys.indices.Nodup ∧
    (sys.finishedJobs.map (fun r => r.pieceIndex)).Nodup ∧
    (∀ (bitfieldPayload : List Nat) (peerConn : Conn) (badHashErrors pieceIndex : Nat),
      (∀ f, (startJobLoopBody sha1 metaInfo bitfieldPayload peerConn badHashErrors
        pieceIndex).control ≠ .exit f) →
      (startJobLoopBody sha1 metaInfo bitfieldPayload peerConn badHashErrors pieceIndex).sends
          = [.jobQueue pieceIndex] ∨
      ∃ pieceData,
        (startJobLoopBody sha1 metaInfo bitfieldPayload peerConn badHashErrors pieceIndex).sends
          = [.finishedJobs ⟨pieceIndex, pieceData⟩]) := by
  have hperm : sys.indices.Perm (List.range metaInfo.piecesHash.length) := by
    have := run_indices sha1 metaInfo schedule _ sys hrun
    rwa [init_indices] at this
  have hnd : sys.indices.Nodup := hperm.nodup_iff.2 (List.nodup_range _)
  refine ⟨hperm, hnd, ?_, ?_⟩
  · unfold Pipeline.indices at hnd
    exact (List.nodup_append.1 hnd).2.1
  · intro bitfieldPayload peerConn badHashErrors pieceIndex hc
    rcases startJobLoopBody_cases sha1 metaInfo bitfieldPayload peerConn badHashErrors pieceIndex
      with ⟨f, hf, _⟩ | ⟨_, hs | ⟨pieceData, _, _, _, hs⟩⟩
    · exact absurd hf (hc f)
    · exact Or.inl hs
    · exact Or.inr ⟨pieceData, hs⟩

/-- C8 on a one-piece file with one session whose peer serves the piece: the
session takes index 0 and delivers it; the index is then in the delivered
results only. -/
theorem pipeline_conservation_witness :
    Pipeline.indices
      ⟨[], [⟨0, [1, 2, 3]⟩],
        [⟨⟨[], [[0, 0, 0, 13, 6, 0, 0, 0, 0, 0, 0, 0, 0, 0, 0, 0, 3]], 0⟩, [128], 0, none, true⟩]⟩
      = [0] ∧
    (Pipeline.indices
      ⟨[], [⟨0, [1, 2, 3]⟩],
        [⟨⟨[], [[0, 0, 0, 13, 6, 0, 0, 0, 0, 0, 0, 0, 0, 0, 0, 0, 3]], 0⟩, [128], 0, none,
          true⟩]⟩).Nodup :=
  ⟨rfl, (pipeline_conservation (fun d => [d.sum % 256]) ⟨[], 3, 3, [], [[6]]⟩
    [⟨⟨[0, 0, 0, 12, 7, 0, 0, 0, 0, 0, 0, 0, 0, 1, 2, 3], [], 1⟩, [128], 0, none, true⟩]
    [0, 0]
    ⟨[], [⟨0, [1, 2, 3]⟩],
      [⟨⟨[], [[0, 0, 0, 13, 6, 0, 0, 0, 0, 0, 0, 0, 0, 0, 0, 0, 3]], 0⟩, [128], 0, none, true⟩]⟩
    rfl).2.1⟩

/-! ## Output assembly -/

theorem flatMap_range_length (f : Nat → List Nat) (c : Nat) :
    ∀ M : Nat, (∀ j, j < M → (f j).length = c) → ((List.range M).flatMap f).length = M * c := by
  intro M
  induction M with
  | zero => intro _; simp
  | succ M ih =>
    intro h
    rw [List.range_succ, List.flatMap_append, List.length_append, ih (fun j hj => h j (by omega))]
    simp [h M (Nat.lt_succ_self M), Nat.succ_mul]

theorem flatMap_congr_mem (f g : Nat → List Nat) (l : List Nat)
    (h : ∀ j ∈ l, f j = g j) : l.flatMap f = l.flatMap g := by
  induction l with
  | nil => rfl
  | cons a l ih =>
    simp only [List.flatMap_cons]
    rw [h a (List.mem_cons_self _ _), ih (fun j hj => h j (List.mem_cons_of_mem _ hj))]

theorem range_split (N i : Nat) (hi : i < N) :
    List.range N = List.range i ++ i :: List.range' (i + 1) (N - i - 1) := by
  have h1 : N = (N - i - 1 + 1) + i := by omega
  have h2 := List.range'_append_1 0 i (N - i - 1 + 1)
  rw [← h1, Nat.zero_add, List.range'_succ] at h2
  rw [List.range_eq_range', List.range_eq_range', ← h2]

/-- The buffer as the concatenation of the slots of pieces `0 .. N-1`, split at
slot `i`. -/
theorem slots_split (f : Nat → List Nat) (N i : Nat) (hi : i < N) :
    (List.range N).flatMap f
      = (List.range i).flatMap f ++ f i ++ (List.range' (i + 1) (N - i - 1)).flatMap f := by
  rw [range_split N i hi]
  simp [List.flatMap_append, List.flatMap_cons]

theorem copyPiece_slot (f : Nat → List Nat) (N pl i : Nat) (data : List Nat) (hi : i < N)
    (hpre : ∀ j, j < i → (f j).length = pl) (hdata : data.length = (f i).length) :
    copyPiece ((List.range N).flatMap f) (pl * i) data
      = .ok ((List.range N).flatMap (Function.update f i data)) := by
  have hA : ((List.range i).flatMap f).length = pl * i := by
    rw [flatMap_range_length f pl i hpre, Nat.mul_comm]
  have hA' : (List.range i).flatMap (Function.update f i data) = (List.range i).flatMap f := by
    apply flatMap_congr_mem
    intro j hj
    have : j ≠ i := by
      have := List.mem_range.1 hj
      omega
    simp [Function.update, this]
  have hB' : (List.range' (i + 1) (N - i - 1)).flatMap (Function.update f i data)
      = (List.range' (i + 1) (N - i - 1)).flatMap f := by
    apply flatMap_congr_mem
    intro j hj
    have : j ≠ i := by
      have := (List.mem_range'_1.1 hj).1
      omega
    simp [Function.update, this]
  rw [slots_split f N i hi, slots_split (Function.update f i data) N i hi, hA', hB']
  generalize (List.range i).flatMap f = A at hA
  generalize (List.range' (i + 1) (N - i - 1)).flatMap f = B
  have hnot : ¬ (A ++ f i ++ B).length < pl * i + data.length := by
    simp only [List.length_append]
    omega
  unfold copyPiece
  simp only [hnot, if_false, Function.update_same]
  have htake : List.take (pl * i) (A ++ f i ++ B) = A := by
    rw [List.append_assoc, ← hA, List.take_left]
  have hdrop : List.drop (pl * i + data.length) (A ++ f i ++ B) = B := by
    have : pl * i + data.length = (A ++ f i).length := by
      simp only [List.length_append]
      omega
    rw [this, List.drop_left]
  rw [htake, hdrop]

theorem mainLoop_slots (metaInfo : MetaInfo) (N : Nat) (pieces : Nat → List Nat)
    (len : Nat → Nat) (hlen : ∀ j, j + 1 < N → len j = metaInfo.pieceLength)
    (hpieces : ∀ j, j < N → (pieces j).length = len j) :
    ∀ (arrival : List Nat) (piecesDone : Nat) (f : Nat → List Nat),
      (∀ j ∈ arrival, j < N) → piecesDone + arrival.length = N →
      (∀ j, j < N → (f j).length = len j) →
      mainLoop metaInfo N (arrival.map (fun i => ⟨i, pieces i⟩)) piecesDone
          ((List.range N).flatMap f)
        = .ok ((List.range N).flatMap (fun j => if j ∈ arrival then pieces j else f j)) := by
  intro arrival
  induction arrival with
  | nil =>
    intro piecesDone f _ hdone _
    have : N ≤ piecesDone := by simp at hdone; omega
    simp [mainLoop, this]
  | cons i rest ih =>
    intro piecesDone f hmem hdone hf
    have hi : i < N := hmem i (List.mem_cons_self _ _)
    have hnot : ¬ N ≤ piecesDone := by simp at hdone; omega
    have hcopy := copyPiece_slot f N metaInfo.pieceLength i (pieces i) hi
      (fun j hj => by rw [hf j (by omega), hlen j (by omega)])
      (by rw [hpieces i hi, hf i hi])
    have hf' : ∀ j, j < N → (Function.update f i (pieces i) j).length = len j := by
      intro j hj
      by_cases hji : j = i
      · subst hji; simp [hpieces j hj]
      · simp [Function.update, hji, hf j hj]
    have hrest := ih (piecesDone + 1) (Function.update f i (pieces i))
      (fun j hj => hmem j (List.mem_cons_of_mem _ hj)) (by simp at hdone; omega) hf'
    simp only [List.map_cons, mainLoop, hnot, if_false, hcopy, hrest]
    congr 1
    apply flatMap_congr_mem
    intro j _
    by_cases hji : j = i
    · subst hji; simp
    · simp [Function.update, hji]

theorem ceil_mul_le (fl pl : Nat) (hpl : 0 < pl) :
    pl * ((fl + pl - 1) / pl - 1) ≤ fl ∧ ((fl + pl - 1) / pl = 0 → fl = 0) := by
  have hq := Nat.div_add_mod fl pl
  have hr := Nat.mod_lt fl hpl
  have hcases := ceil_div_cases fl pl hpl
  generalize (fl + pl - 1) / pl = N at hcases
  generalize fl / pl = q at hq hcases
  generalize fl % pl = r at hq hr hcases
  rcases hcases with ⟨h0, hN⟩ | ⟨h0, hN⟩
  · rw [hN]
    rw [h0] at hq
    constructor
    · have : pl * (q - 1) ≤ pl * q := Nat.mul_le_mul_left _ (by omega)
      omega
    · intro hq0
      rw [hq0] at hq
      simpa using hq.symm
  · rw [hN]
    constructor
    · simp only [Nat.add_sub_cancel]; omega
    · intro h; omega

/-- C7: output assembly is order independent.  For metadata with
`N = len(piecesHash) = ceil(fileLength / pieceLength)` pieces, when the receive
loop of `main` gets `N` results whose indices are `0 .. N-1` in any arrival
order and whose data have the piece lengths of the data model, the output
buffer has length `fileLength`, equals the concatenation of the pieces in index
order, and holds each piece at offset `index * pieceLength`. -/
theorem mainFileData_order_independent (metaInfo : MetaInfo) (pieces : Nat → List Nat)
    (arrival : List Nat) (hpl : 0 < metaInfo.pieceLength)
    (hN : metaInfo.piecesHash.length
      = (metaInfo.fileLength + metaInfo.pieceLength - 1) / metaInfo.pieceLength)
    (harr : arrival.Perm (List.range metaInfo.piecesHash.length))
    (hlen : ∀ i, i < metaInfo.piecesHash.length →
      (pieces i).length = if i + 1 < metaInfo.piecesHash.length then metaInfo.pieceLength
        else metaInfo.fileLength - metaInfo.pieceLength * (metaInfo.piecesHash.length - 1)) :
    ∃ fileData : List Nat,
      mainFileData metaInfo (arrival.map (fun i => ⟨i, pieces i⟩)) = .ok fileData ∧
      fileData.length = metaInfo.fileLength ∧
      fileData = (List.range metaInfo.piecesHash.length).flatMap pieces ∧
      ∀ i, i < metaInfo.piecesHash.length →
        (fileData.drop (metaInfo.pieceLength * i)).take (pieces i).length = pieces i := by
  obtain ⟨announce, fl, pl, infoHash, piecesHash⟩ := metaInfo
  simp only at hpl hN harr hlen ⊢
  obtain ⟨hle, hzero⟩ := ceil_mul_le fl pl hpl
  rw [← hN] at hle hzero
  generalize hNdef : piecesHash.length = N at *
  -- the total length of `N` slots
  have htotal : ∀ f : Nat → List Nat,
      (∀ j, j < N → (f j).length = if j + 1 < N then pl else fl - pl * (N - 1)) →
      ((List.range N).flatMap f).length = fl := by
    intro f hf
    cases N with
    | zero => simp [hzero rfl]
    | succ M =>
      rw [List.range_succ, List.flatMap_append, List.length_append,
        flatMap_range_length f pl M (fun j hj => by rw [hf j (by omega)]; simp [hj])]
      simp only [List.flatMap_cons, List.flatMap_nil, List.append_nil]
      rw [hf M (by omega)]
      simp only [Nat.lt_irrefl, if_false, Nat.add_sub_cancel] at hle ⊢
      have : M * pl = pl * M := Nat.mul_comm _ _
      omega
  -- the zeroed buffer as `N` slots
  have hzeros : List.replicate fl 0
      = (List.range N).flatMap
          (fun j => List.replicate (if j + 1 < N then pl else fl - pl * (N - 1)) 0) := by
    symm
    rw [List.eq_replicate_iff]
    refine ⟨htotal _ (fun j _ => by simp), ?_⟩
    intro b hb
    obtain ⟨j, _, hj⟩ := List.mem_flatMap.1 hb
    exact (List.mem_replicate.1 hj).2
  have hloop := mainLoop_slots ⟨announce, fl, pl, infoHash, piecesHash⟩ N pieces
    (fun j => if j + 1 < N then pl else fl - pl * (N - 1))
    (fun j hj => by simp [hj]) hlen arrival 0
    (fun j => List.replicate (if j + 1 < N then pl else fl - pl * (N - 1)) 0)
    (fun j hj => List.mem_range.1 (harr.subset hj))
    (by rw [Nat.zero_add, harr.length_eq, List.length_range])
    (fun j _ => by simp)
  have hall : (List.range N).flatMap
      (fun j => if j ∈ arrival then pieces j
        else List.replicate (if j + 1 < N then pl else fl - pl * (N - 1)) 0)
      = (List.range N).flatMap pieces := by
    apply flatMap_congr_mem
    intro j hj
    simp [harr.symm.subset hj]
  refine ⟨(List.range N).flatMap pieces, ?_, htotal pieces hlen, rfl, ?_⟩
  · unfold mainFileData
    simp only [hNdef]
    rw [hzeros, hloop, hall]
  · intro i hi
    have hA : ((List.range i).flatMap pieces).length = pl * i := by
      rw [flatMap_range_length pieces pl i
        (fun j hj => by rw [hlen j (by omega)]; simp; omega), Nat.mul_comm]
    rw [slots_split pieces N i hi, List.append_assoc, ← hA, List.drop_left, List.take_left]

/-- C7 on a file of 5 bytes in pieces of 2 (`N = 3`, last piece 1 byte) whose
pieces arrive in the order 2, 0, 1: the buffer is `[1, 2, 3, 4, 5]`. -/
theorem mainFileData_order_independent_witness :
    mainFileData ⟨[], 5, 2, [], [[], [], []]⟩ [⟨2, [5]⟩, ⟨0, [1, 2]⟩, ⟨1, [3, 4]⟩]
      = .ok [1, 2, 3, 4, 5] ∧
    ∃ fileData : List Nat,
      mainFileData ⟨[], 5, 2, [], [[], [], []]⟩
        ([2, 0, 1].map (fun i => ⟨i, [[1, 2], [3, 4], [5]].getD i []⟩)) = .ok fileData ∧
      fileData.length = 5 ∧
      fileData = (List.range 3).flatMap (fun i => [[1, 2], [3, 4], [5]].getD i []) ∧
      ∀ i, i < 3 →
        (fileData.drop (2 * i)).take ([[1, 2], [3, 4], [5]].getD i []).length
          = [[1, 2], [3, 4], [5]].getD i [] :=
  ⟨rfl, mainFileData_order_independent ⟨[], 5, 2, [], [[], [], []]⟩
    (fun i => [[1, 2], [3, 4], [5]].getD i []) [2, 0, 1] (by decide) (by decide) (by decide)
    (by decide)⟩

/-! ## Block requests of `downloadPiece` -/

theorem AppendUint32_eq (b : List Nat) (v : Nat) : AppendUint32 b v = b ++ AppendUint32 [] v := by
  simp [AppendUint32]

theorem requestMsg_offset (pieceIndex pieceOffset : Nat) (blockLength : Int) :
    Uint32 (((requestMsg pieceIndex pieceOffset blockLength).drop 9).take 4)
      = pieceOffset % 2 ^ 32 := by
  have h13 : AppendUint32 [] (toUint32 (1 + 4 + 4 + 4)) ++ [Request % 256] = [0, 0, 0, 13, 6] := by
    decide
  have ho : toUint32 (pieceOffset : Int) = pieceOffset % 2 ^ 32 := by
    unfold toUint32
    omega
  unfold requestMsg
  rw [h13, ho, AppendUint32_eq (AppendUint32 _ _), AppendUint32_eq (AppendUint32 _ _),
    AppendUint32_eq [0, 0, 0, 13, 6]]
  have h4 : ∀ v, (AppendUint32 [] v).length = 4 := fun v => by simp [AppendUint32]
  have hshape : ∀ a b c : List Nat, a.length = 4 →
      ((([0, 0, 0, 13, 6] ++ a) ++ b) ++ c).drop 9 = b ++ c := by
    intro a b c ha
    match a, ha with
    | [a0, a1, a2, a3], _ => simp
  rw [hshape _ _ _ (h4 _)]
  have htake : ∀ b c : List Nat, b.length = 4 → (b ++ c).take 4 = b := by
    intro b c hb
    rw [← hb, List.take_left]
  rw [htake _ _ (h4 _)]
  exact Uint32_AppendUint32 _ (Nat.mod_lt _ (by omega))

/-- C11: for every 20-byte info-hash, `handshakePeer` sends exactly the 68 bytes
`[0x13] ++ "BitTorrent protocol" ++ 8 zero bytes ++ info_hash ++
"00112233445566778899"`; given a 68-byte reply it succeeds if and only if the
first 20 bytes of the reply equal `[0x13] ++ "BitTorrent protocol"`, the first
20 bytes sent, and on success it returns the last 20 bytes of the reply as the
peer id, so bytes 20 .. 47 of the reply do not affect the outcome. -/
theorem handshakePeer_spec (infoHash reply rest : List Nat) (outbox : List (List Nat))
    (writes : Nat) (hhash : infoHash.length = 20) (hreply : reply.length = 68)
    (hwrites : writes ≠ 0) :
    (handshakePeer ⟨reply ++ rest, outbox, writes⟩ infoHash).2
      = ⟨rest,
         outbox ++ [19 :: (bytes "BitTorrent protocol" ++ (List.replicate 8 0 ++
            (infoHash ++ bytes "00112233445566778899")))],
         writes - 1⟩ ∧
    (19 :: (bytes "BitTorrent protocol" ++ (List.replicate 8 0 ++
        (infoHash ++ bytes "00112233445566778899")))).length = 68 ∧
    (19 :: (bytes "BitTorrent protocol" ++ (List.replicate 8 0 ++
        (infoHash ++ bytes "00112233445566778899")))).take 20
      = 19 :: bytes "BitTorrent protocol" ∧
    ((∃ peerId, (handshakePeer ⟨reply ++ rest, outbox, writes⟩ infoHash).1 = .ok peerId) ↔
      reply.take 20 = 19 :: bytes "BitTorrent protocol") ∧
    (reply.take 20 = 19 :: bytes "BitTorrent protocol" →
      (handshakePeer ⟨reply ++ rest, outbox, writes⟩ infoHash).1 = .ok (reply.drop 48) ∧
      (reply.drop 48).length = 20) ∧
    (reply.take 20 ≠ 19 :: bytes "BitTorrent protocol" →
      (handshakePeer ⟨reply ++ rest, outbox, writes⟩ infoHash).1 = .error .error) := by
  have hsig : (bytes "BitTorrent protocol").length = 19 := by decide
  have hcid : (bytes "00112233445566778899").length = 20 := by decide
  have hplen : ([(bytes "BitTorrent protocol").length % 256] ++ bytes "BitTorrent protocol"
      ++ List.replicate 8 0 ++ infoHash ++ ClientId).length = 68 := by
    simp [ClientId, hsig, hcid, hhash]
  have hpay : [(bytes "BitTorrent protocol").length % 256] ++ bytes "BitTorrent protocol"
      ++ List.replicate 8 0 ++ infoHash ++ ClientId
      = 19 :: (bytes "BitTorrent protocol" ++ (List.replicate 8 0 ++
          (infoHash ++ bytes "00112233445566778899"))) := by
    simp [ClientId, hsig]
  have htake : (19 :: (bytes "BitTorrent protocol" ++ (List.replicate 8 0 ++
      (infoHash ++ bytes "00112233445566778899")))).take 20
      = 19 :: bytes "BitTorrent protocol" := by
    have : (19 :: bytes "BitTorrent protocol").length = 20 := by decide
    rw [← List.cons_append, ← this, List.take_left]
  have hrecv := receiveData_append reply rest
    (outbox ++ [19 :: (bytes "BitTorrent protocol" ++ (List.replicate 8 0 ++
      (infoHash ++ bytes "00112233445566778899")))]) (writes - 1) 68 hreply
  have hrun : handshakePeer ⟨reply ++ rest, outbox, writes⟩ infoHash
      = (if (19 :: bytes "BitTorrent protocol") ≠ reply.take 20 then .error .error
          else .ok (reply.drop 48),
         ⟨rest,
          outbox ++ [19 :: (bytes "BitTorrent protocol" ++ (List.replicate 8 0 ++
            (infoHash ++ bytes "00112233445566778899")))],
          writes - 1⟩) := by
    have hlen68 : (19 :: (bytes "BitTorrent protocol" ++ (List.replicate 8 0 ++
        (infoHash ++ bytes "00112233445566778899")))).length = 68 := by
      rw [← hpay]; exact hplen
    have hcid' : ClientId.length = 20 := hcid
    unfold handshakePeer
    simp only [hpay]
    simp only [hlen68, sendData, hwrites, if_false, hrecv, hsig, htake, hcid']
    split <;> rfl
  rw [hrun]
  refine ⟨rfl, ?_, htake, ?_, ?_, ?_⟩
  · rw [← hpay]; exact hplen
  · constructor
    · rintro ⟨peerId, h⟩
      by_contra hne
      have hne' : (19 :: bytes "BitTorrent protocol") ≠ reply.take 20 := fun e => hne e.symm
      simp only [hne', ne_eq, not_false_eq_true, if_true] at h
      exact Except.noConfusion h
    · intro h
      exact ⟨reply.drop 48, by simp [h]⟩
  · intro h
    refine ⟨by simp [h], ?_⟩
    simp [hreply]
  · intro h
    have hne' : (19 :: bytes "BitTorrent protocol") ≠ reply.take 20 := fun e => h e.symm
    simp [hne']

/-- C11 at the info-hash of twenty bytes `1` and a reply with reserved bytes `5`,
another info-hash and the peer id `-PEER-ID-0123456789A`: the handshake
succeeds with that peer id. -/
theorem handshakePeer_spec_witness :
    (handshakePeer
      ⟨19 :: (bytes "BitTorrent protocol" ++ (List.replicate 8 5 ++ (List.replicate 20 2 ++
        bytes "-PEER-ID-0123456789A"))) ++ [], [], 1⟩ (List.replicate 20 1)).1
      = .ok (bytes "-PEER-ID-0123456789A") :=
  ((handshakePeer_spec (List.replicate 20 1)
    (19 :: (bytes "BitTorrent protocol" ++ (List.replicate 8 5 ++ (List.replicate 20 2 ++
      bytes "-PEER-ID-0123456789A")))) [] [] 1 (by decide) (by decide) (by decide)).2.2.2.2.1
    (by decide)).1

/-! ## Decoder on integers and byte strings -/

theorem digitsValue_digits (ds : List Nat) :
    ∀ (acc v : Nat), digitsValue acc ds = some v → ∀ c ∈ ds, 48 ≤ c ∧ c ≤ 57 := by
  induction ds with
  | nil => intro _ _ _ c hc; simp at hc
  | cons d ds ih =>
    intro acc v h c hc
    unfold digitsValue at h
    split at h
    · rename_i hd
      rcases List.mem_cons.1 hc with rfl | hmem
      · exact hd
      · exact ih _ v h c hmem
    · exact Option.noConfusion h

theorem Atoi_digits (ds : List Nat) (v : Nat) (hne : ds ≠ [])
    (hv : digitsValue 0 ds = some v) :
    Atoi ds = (if v < 2 ^ 63 then some (v : Int) else none) ∧
    Atoi (45 :: ds) = (if v ≤ 2 ^ 63 then some (-(v : Int)) else none) := by
  cases ds with
  | nil => exact absurd rfl hne
  | cons c cs =>
    have hc := digitsValue_digits (c :: cs) 0 v hv c (List.mem_cons_self _ _)
    have h45 : c ≠ 45 := by omega
    have h43 : c ≠ 43 := by omega
    constructor
    · simp [Atoi, h45, h43, hv]
    · simp [Atoi, hv]

theorem parseInt_text (pre txt post : List Nat) (hne : ∀ c ∈ txt, c ≠ 101) :
    parseInt (pre ++ (txt ++ 101 :: post)) pre.length
      = match Atoi txt with
        | none => .error .error
        | some intValue => .ok (intValue, pre.length + txt.length + 1) := by
  have hnot : ¬ (pre ++ (txt ++ 101 :: post)).length < pre.length := by simp
  unfold parseInt
  rw [if_neg hnot]
  simp only [List.drop_left, firstIndex_append 101 _ _ hne, List.take_left]

theorem decode_int_text (fuel : Nat) (txt post : List Nat) (hne : ∀ c ∈ txt, c ≠ 101) :
    decode (fuel + 1) (105 :: (txt ++ 101 :: post)) 0
      = match Atoi txt with
        | none => .error .abort
        | some intValue => .ok (.int intValue, txt.length + 2) := by
  have hdt : determineDataType (105 :: (txt ++ 101 :: post)) 0 = .ok (.Int, 1) := by
    simp [determineDataType]
  have hpi := parseInt_text [105] txt post hne
  have hshape : (105 :: (txt ++ 101 :: post)) = [105] ++ (txt ++ 101 :: post) := rfl
  have hlen : ([105] : List Nat).length = 1 := rfl
  rw [hlen, ← hshape] at hpi
  unfold decode
  rw [hdt]
  simp only
  rw [hpi]
  cases Atoi txt with
  | none => rfl
  | some n =>
    simp only [Except.ok.injEq, Prod.mk.injEq, true_and]
    omega

theorem parseString_text (pre ds rest : List Nat) (hne : ∀ c ∈ ds, c ≠ 58) :
    parseString (pre ++ (ds ++ 58 :: rest)) pre.length
      = match Atoi ds with
        | none => .error .error
        | some length =>
          if length < 0 ∨ ((ds ++ 58 :: rest).length : Int) < ds.length + length + 1 then
            .error .panic
          else
            .ok (((ds ++ 58 :: rest).drop (ds.length + 1)).take length.toNat,
                 pre.length + ds.length + length.toNat + 1) := by
  have hnot : ¬ (pre ++ (ds ++ 58 :: rest)).length < pre.length := by simp
  unfold parseString
  rw [if_neg hnot]
  simp only [List.drop_left, firstIndex_append 58 _ _ hne, List.take_left]

theorem decode_str_text (fuel : Nat) (ds rest : List Nat) (v : Nat) (hne : ds ≠ [])
    (hv : digitsValue 0 ds = some v) :
    decode (fuel + 1) (ds ++ 58 :: rest) 0
      = if 2 ^ 63 ≤ v then .error .abort
        else if rest.length < v then .error .panic
        else .ok (.str (rest.take v), ds.length + v + 1) := by
  have hdig := digitsValue_digits ds 0 v hv
  have hcolon : ∀ c ∈ ds, c ≠ 58 := fun c hc => by have := hdig c hc; omega
  have hps := parseString_text [] ds rest hcolon
  simp only [List.nil_append, List.length_nil, Nat.zero_add] at hps
  have hdt : determineDataType (ds ++ 58 :: rest) 0 = .ok (.String, 0) := by
    cases ds with
    | nil => exact absurd rfl hne
    | cons c cs =>
      have hc := hdig c (List.mem_cons_self _ _)
      simp [determineDataType, hc]
  unfold decode
  rw [hdt]
  simp only
  rw [hps, (Atoi_digits ds v hne hv).1]
  by_cases hbig : 2 ^ 63 ≤ v
  · have hnlt : ¬ v < 2 ^ 63 := by omega
    rw [if_neg hnlt, if_pos hbig]
  · have hlt : v < 2 ^ 63 := by omega
    rw [if_pos hlt, if_neg hbig]
    by_cases hshort : rest.length < v
    · have hcond : ((v : Int) < 0 ∨
          (((ds ++ 58 :: rest).length : Nat) : Int) < (ds.length : Int) + (v : Int) + 1) := by
        right
        simp only [List.length_append, List.length_cons]
        omega
      simp only [hcond, if_true, hshort]
    · have hcond : ¬ ((v : Int) < 0 ∨
          (((ds ++ 58 :: rest).length : Nat) : Int) < (ds.length : Int) + (v : Int) + 1) := by
        simp only [List.length_append, List.length_cons]
        omega
      have hdrop : List.drop (ds.length + 1) (ds ++ 58 :: rest) = rest := by
        rw [List.drop_append_eq_append_drop]
        simp
      simp only [hcond, if_false, hshort, hdrop, Int.toNat_ofNat]

/-- C12: for every integer `n` in the signed 64-bit range, decoding
`i<canonical decimal of n>e` yields `n` with the cursor at the end of the input;
`i42e` gives 42, `i-7e` gives -7, and `ie` makes the decoder abort. -/
theorem decode_int_spec :
    (∀ n : Int, -(2 ^ 63 : Int) ≤ n → n < 2 ^ 63 →
      decodeAll (105 :: (formatInt n ++ [101]))
        = .ok (.int n, (105 :: (formatInt n ++ [101])).length)) ∧
    decodeAll (bytes "i42e") = .ok (.int 42, 4) ∧
    decodeAll (bytes "i-7e") = .ok (.int (-7), 4) ∧
    decodeAll (bytes "ie") = .error .abort := by
  refine ⟨?_, rfl, rfl, rfl⟩
  intro n hlo hhi
  have h := decode_int_text (2 * (105 :: (formatInt n ++ [101])).length + 1) (formatInt n) []
    (formatInt_no_e n)
  rw [Atoi_formatInt n hlo hhi] at h
  unfold decodeAll
  rw [h]
  simp only [List.length_cons, List.length_append, List.length_nil]

/-- C12 at the largest 64-bit integer. -/
theorem decode_int_spec_witness :
    decodeAll (105 :: (formatInt 9223372036854775807 ++ [101]))
      = .ok (.int 9223372036854775807,
          (105 :: (formatInt 9223372036854775807 ++ [101])).length) :=
  decode_int_spec.1 9223372036854775807 (by decide) (by decide)

/-- C13 fails on the code: `i007e`, `i-03e` and `i-0e` decode to 7, -3 and 0. -/
theorem decode_int_noncanonical_counterexample :
    decodeAll (bytes "i007e") = .ok (.int 7, 5) ∧
    decodeAll (bytes "i-03e") = .ok (.int (-3), 5) ∧
    decodeAll (bytes "i-0e") = .ok (.int 0, 4) :=
  ⟨rfl, rfl, rfl⟩

/-- C13, as amended: the decoder reads the text between `i` and `e` with
`strconv.Atoi` and checks no canonical form, so for every non-empty run of
decimal digits, leading zeros included, `i<digits>e` decodes to the value of
the digits and `i-<digits>e` to its negative (`i-0e` to 0), whenever the value
is in the signed 64-bit range. -/
theorem decode_int_noncanonical (ds : List Nat) (v : Nat) (hne : ds ≠ [])
    (hv : digitsValue 0 ds = some v) :
    (v < 2 ^ 63 → decodeAll (105 :: (ds ++ [101])) = .ok (.int v, ds.length + 2)) ∧
    (v ≤ 2 ^ 63 →
      decodeAll (105 :: 45 :: (ds ++ [101])) = .ok (.int (-(v : Int)), ds.length + 3)) := by
  have hdig := digitsValue_digits ds 0 v hv
  have hA := Atoi_digits ds v hne hv
  constructor
  · intro hlt
    have h := decode_int_text (2 * (105 :: (ds ++ [101])).length + 1) ds []
      (fun c hc => by have := hdig c hc; omega)
    rw [hA.1, if_pos hlt] at h
    unfold decodeAll
    rw [h]
  · intro hle
    have h := decode_int_text (2 * (105 :: 45 :: (ds ++ [101])).length + 1) (45 :: ds) []
      (fun c hc => by
        rcases List.mem_cons.1 hc with rfl | hmem
        · omega
        · have := hdig c hmem; omega)
    rw [hA.2, if_pos hle] at h
    unfold decodeAll
    rw [List.cons_append] at h
    rw [h]
    simp only [List.length_cons]

/-- C13 amended, at the digits `007`. -/
theorem decode_int_noncanonical_witness :
    decodeAll (105 :: ([48, 48, 55] ++ [101])) = .ok (.int 7, 5) ∧
    decodeAll (105 :: 45 :: ([48, 48, 55] ++ [101])) = .ok (.int (-7), 6) :=
  ⟨(decode_int_noncanonical [48, 48, 55] 7 (by decide) rfl).1 (by decide),
   (decode_int_noncanonical [48, 48, 55] 7 (by decide) rfl).2 (by decide)⟩

/-- Byte strings through the decoder: `<len(s)>:<s>` decodes to `s` with the
cursor at the end; an input `<n>:<bytes>` with fewer than `n` bytes after the
colon makes the slice of `parseString` panic, or, when `n` does not fit a Go
`int`, makes `Atoi` fail and the decoder abort. -/
theorem decode_str_spec :
    (∀ s : List Nat, s.length < 2 ^ 63 →
      decodeAll (natToDecimal s.length ++ 58 :: s)
        = .ok (.str s, (natToDecimal s.length ++ 58 :: s).length)) ∧
    decodeAll (bytes "5:hello") = .ok (.str (bytes "hello"), 7) ∧
    decodeAll (bytes "0:") = .ok (.str [], 2) ∧
    (∀ (ds rest : List Nat) (n : Nat), ds ≠ [] → digitsValue 0 ds = some n →
      rest.length < n →
      decodeAll (ds ++ 58 :: rest) = .error (if n < 2 ^ 63 then .panic else .abort) ∧
      ∀ r, decodeAll (ds ++ 58 :: rest) ≠ .ok r) ∧
    decodeAll (bytes "3:ab") = .error .panic := by
  refine ⟨?_, rfl, rfl, ?_, rfl⟩
  · intro s hs
    have h := decode_str_canon (2 * (natToDecimal s.length ++ 58 :: s).length + 1) [] s [] hs
    simp only [leafText, List.nil_append, List.append_nil, List.length_nil, Nat.zero_add] at h
    exact h
  · intro ds rest n hne hv hshort
    have h := decode_str_text (2 * (ds ++ 58 :: rest).length + 1) ds rest n hne hv
    have hres : decodeAll (ds ++ 58 :: rest)
        = .error (if n < 2 ^ 63 then .panic else .abort) := by
      unfold decodeAll
      rw [h]
      by_cases hbig : 2 ^ 63 ≤ n
      · have : ¬ n < 2 ^ 63 := by omega
        rw [if_pos hbig, if_neg this]
      · have : n < 2 ^ 63 := by omega
        rw [if_neg hbig, if_pos hshort, if_pos this]
    refine ⟨hres, ?_⟩
    intro r hr
    rw [hres] at hr
    exact Except.noConfusion hr

/-- C14 fails on the code in its second half: for `3:ab`, where fewer than 3 bytes
follow the colon, `parseString` returns no error: the slice
`bencodedString[firstColonIndex+1 : firstColonIndex+length+1]` is taken without
a bounds check and panics, so the process crashes instead of reporting a
decoding error.  The sibling paths of the same function do report one: a
missing colon (`3ab`) and a length that `Atoi` rejects (`3x:ab`) make
`parseString` return an error, which `decode` turns into `abort`.  Well-formed
strings decode as claimed (`5:hello`, `0:`). -/
theorem decode_str_short_panics :
    parseString (bytes "3:ab") 0 = .error .panic ∧
    decodeAll (bytes "3:ab") = .error .panic ∧
    parseString (bytes "3ab") 0 = .error .error ∧
    decodeAll (bytes "3ab") = .error .abort ∧
    parseString (bytes "3x:ab") 0 = .error .error ∧
    decodeAll (bytes "3x:ab") = .error .abort ∧
    decodeAll (bytes "5:hello") = .ok (.str (bytes "hello"), 7) ∧
    decodeAll (bytes "0:") = .ok (.str [], 2) :=
  ⟨rfl, rfl, rfl, rfl, rfl, rfl, rfl, rfl⟩

/-- C15 fails on the code: the loops of the `List` and `Dictionary` cases stop at
the end of the input and `decode` returns the elements read so far, with the
cursor one past the end of the input: `l`, `li1e`, `d` and `d3:cow3:moo` all
decode to a value. -/
theorem decode_unterminated_returns :
    decodeAll (bytes "l") = .ok (.list [], 2) ∧
    decodeAll (bytes "li1e") = .ok (.list [.int 1], 5) ∧
    decodeAll (bytes "d") = .ok (.dict [], 2) ∧
    decodeAll (bytes "d3:cow3:moo")
      = .ok (.dict [(bytes "cow", .str (bytes "moo"))], 12) :=
  ⟨rfl, rfl, rfl, rfl⟩

/-! ## Metadata loader -/

theorem splitPieces_chunks (concatenatedPieces : List Nat) :
    (splitPieces concatenatedPieces).length = concatenatedPieces.length / 20 ∧
    (∀ chunk ∈ splitPieces concatenatedPieces, chunk.length = 20) ∧
    (splitPieces concatenatedPieces).flatten
      = concatenatedPieces.take (20 * (concatenatedPieces.length / 20)) := by
  refine ⟨by simp [splitPieces, SHAHashLength], ?_, ?_⟩
  · intro chunk hc
    simp only [splitPieces, SHAHashLength, List.mem_map, List.mem_range] at hc
    obtain ⟨i, hi, rfl⟩ := hc
    simp only [List.length_take, List.length_drop]
    omega
  · have key : ∀ n, 20 * n ≤ concatenatedPieces.length →
        ((List.range n).map (fun i => (concatenatedPieces.drop (i * 20)).take 20)).flatten
          = concatenatedPieces.take (20 * n) := by
      intro n
      induction n with
      | zero => intro _; simp
      | succ n ih =>
        intro hn
        rw [List.range_succ, List.map_append, List.flatten_append, ih (by omega)]
        simp only [List.map_cons, List.map_nil, List.flatten_cons, List.flatten_nil,
          List.append_nil]
        have h1 : 20 * (n + 1) = 20 * n + 20 := by omega
        have h2 : n * 20 = 20 * n := by omega
        rw [h1, h2, List.take_add]
    have := key (concatenatedPieces.length / 20) (by omega)
    simpa [splitPieces, SHAHashLength] using this

/-- C16 fails on the code: a torrent whose `pieces` string has 21 bytes is
accepted; the digest list holds the one complete 20-byte chunk and the last
byte is dropped (the byte sum stands in for SHA-1). -/
theorem extractMetaInfo_counterexample :
    extractMetaInfo (fun d => [d.sum % 256])
      (bytes "d8:announce3:url4:infod6:lengthi5e12:piece lengthi5e6:pieces21:aaaaaaaaaaaaaaaaaaaabee")
      = .ok ⟨bytes "url", 5, 5, [130], [bytes "aaaaaaaaaaaaaaaaaaaa"]⟩ :=
  rfl

/-- C16, as amended: `extractMetaInfo` does not look at the remainder of
`len(pieces)` by 20.  For every torrent dictionary with the required keys whose
`info` dictionary can be encoded, it returns a `MetaInfo` (announce, the decoded
`length` and `piece length` unchanged, the info-hash) whose `piecesHash` is
the sequence of the `floor(len(pieces) / 20)` consecutive complete 20-byte
chunks of `pieces`, in order; when the length is a multiple of 20 these chunks
are all of `pieces`. -/
theorem extractMetaInfo_pieces (sha1 : List Nat → List Nat) (data : List Nat)
    (metaInfo fileInfo : List (List Nat × Value)) (cur : Nat)
    (announce concatenatedPieces encodedInfo : List Nat) (fileLength pieceLength : Int)
    (hdec : decodeAll data = .ok (.dict metaInfo, cur))
    (hann : mapGet metaInfo (bytes "announce") = some (.str announce))
    (hinfo : mapGet metaInfo (bytes "info") = some (.dict fileInfo))
    (hlen : mapGet fileInfo (bytes "length") = some (.int fileLength))
    (hpl : mapGet fileInfo (bytes "piece length") = some (.int pieceLength))
    (hpieces : mapGet fileInfo (bytes "pieces") = some (.str concatenatedPieces))
    (henc : encodeDict fileInfo = .ok encodedInfo) :
    extractMetaInfo sha1 data
      = .ok ⟨announce, fileLength, pieceLength, sha1 encodedInfo,
          (List.range (concatenatedPieces.length / 20)).map (fun i =>
            (concatenatedPieces.drop (i * 20)).take 20)⟩ ∧
    (∀ chunk ∈ (List.range (concatenatedPieces.length / 20)).map (fun i =>
        (concatenatedPieces.drop (i * 20)).take 20), chunk.length = 20) ∧
    ((List.range (concatenatedPieces.length / 20)).map (fun i =>
        (concatenatedPieces.drop (i * 20)).take 20)).flatten
      = concatenatedPieces.take (20 * (concatenatedPieces.length / 20)) ∧
    (concatenatedPieces.length % 20 = 0 →
      ((List.range (concatenatedPieces.length / 20)).map (fun i =>
        (concatenatedPieces.drop (i * 20)).take 20)).flatten = concatenatedPieces) := by
  have hsplit := splitPieces_chunks concatenatedPieces
  have hdef : splitPieces concatenatedPieces
      = (List.range (concatenatedPieces.length / 20)).map (fun i =>
          (concatenatedPieces.drop (i * 20)).take 20) := rfl
  rw [hdef] at hsplit
  refine ⟨?_, hsplit.2.1, hsplit.2.2, ?_⟩
  · unfold extractMetaInfo
    rw [hdec]
    simp only [getValueString, getValueDict, getValueInt, hann, hinfo, hlen, hpl, hpieces, henc,
      bind, Except.bind, pure, Except.pure, hdef]
  · intro hmod
    rw [hsplit.2.2]
    apply List.take_of_length_le
    omega

/-- C16 amended, at a torrent with two digests (40 bytes of `pieces`); and a
torrent with `length` -5 and `piece length` -7 comes back with these values. -/
theorem extractMetaInfo_pieces_witness :
    (extractMetaInfo (fun d => [d.sum % 256])
      (bytes "d8:announce3:url4:infod6:lengthi5e12:piece lengthi5e6:pieces40:aaaaaaaaaaaaaaaaaaaabbbbbbbbbbbbbbbbbbbbee")
      = .ok ⟨bytes "url", 5, 5,
          [(bytes "d6:lengthi5e12:piece lengthi5e6:pieces40:aaaaaaaaaaaaaaaaaaaabbbbbbbbbbbbbbbbbbbbe").sum
            % 256],
          (List.range ((bytes "aaaaaaaaaaaaaaaaaaaabbbbbbbbbbbbbbbbbbbb").length / 20)).map (fun i =>
            ((bytes "aaaaaaaaaaaaaaaaaaaabbbbbbbbbbbbbbbbbbbb").drop (i * 20)).take 20)⟩) ∧
    extractMetaInfo (fun d => [d.sum % 256])
      (bytes "d8:announce3:url4:infod6:lengthi-5e12:piece lengthi-7e6:pieces0:ee")
      = .ok ⟨bytes "url", -5, -7, [181], []⟩ :=
  ⟨(extractMetaInfo_pieces (fun d => [d.sum % 256])
    (bytes "d8:announce3:url4:infod6:lengthi5e12:piece lengthi5e6:pieces40:aaaaaaaaaaaaaaaaaaaabbbbbbbbbbbbbbbbbbbbee")
    [(bytes "announce", .str (bytes "url")),
     (bytes "info", .dict [(bytes "length", .int 5), (bytes "piece length", .int 5),
        (bytes "pieces", .str (bytes "aaaaaaaaaaaaaaaaaaaabbbbbbbbbbbbbbbbbbbb"))])]
    [(bytes "length", .int 5), (bytes "piece length", .int 5),
      (bytes "pieces", .str (bytes "aaaaaaaaaaaaaaaaaaaabbbbbbbbbbbbbbbbbbbb"))]
    105 (bytes "url") (bytes "aaaaaaaaaaaaaaaaaaaabbbbbbbbbbbbbbbbbbbb")
    (bytes "d6:lengthi5e12:piece lengthi5e6:pieces40:aaaaaaaaaaaaaaaaaaaabbbbbbbbbbbbbbbbbbbbe")
    5 5 rfl rfl rfl rfl rfl rfl rfl).1,
   rfl⟩

/-! ## Choke and unexpected frames in `downloadPiece` -/

/-- C17 fails on the code.  The peer answers the first request with `Choke`, then
`Have`, then the block, and never sends `Unchoke`.  After one pass of the loop
(budget 1, so the run stops there) one request is out and `Choke` and `Have`
have been read, the result of `receiveExpectedMsg(peerConn, Unchoke)` being
dropped; the next pass sends a second request all the same, and the piece is
downloaded.  When the stream ends after `Have`, the second request is sent
before the read error is returned. -/
theorem downloadPiece_request_after_choke :
    downloadPiece ⟨[0, 0, 0, 1, 0] ++ [0, 0, 0, 5, 4, 0, 0, 0, 0], [], 5⟩
        ⟨[], 3, 3, [], [[6]]⟩ 0
      = (.error .error,
         ⟨[],
          [[0, 0, 0, 13, 6, 0, 0, 0, 0, 0, 0, 0, 0, 0, 0, 0, 3],
           [0, 0, 0, 13, 6, 0, 0, 0, 0, 0, 0, 0, 0, 0, 0, 0, 3]], 3⟩) ∧
    downloadPieceLoop 0 3 1 1
        ⟨[0, 0, 0, 1, 0] ++ [0, 0, 0, 5, 4, 0, 0, 0, 0] ++
          [0, 0, 0, 12, 7, 0, 0, 0, 0, 0, 0, 0, 0, 1, 2, 3], [], 5⟩ 0 0 []
      = (.error .fuel,
         ⟨[0, 0, 0, 12, 7, 0, 0, 0, 0, 0, 0, 0, 0, 1, 2, 3],
          [[0, 0, 0, 13, 6, 0, 0, 0, 0, 0, 0, 0, 0, 0, 0, 0, 3]], 4⟩) ∧
    downloadPiece
        ⟨[0, 0, 0, 1, 0] ++ [0, 0, 0, 5, 4, 0, 0, 0, 0] ++
          [0, 0, 0, 12, 7, 0, 0, 0, 0, 0, 0, 0, 0, 1, 2, 3], [], 5⟩
        ⟨[], 3, 3, [], [[6]]⟩ 0
      = (.ok [1, 2, 3],
         ⟨[],
          [[0, 0, 0, 13, 6, 0, 0, 0, 0, 0, 0, 0, 0, 0, 0, 0, 3],
           [0, 0, 0, 13, 6, 0, 0, 0, 0, 0, 0, 0, 0, 0, 0, 0, 3]], 3⟩) :=
  ⟨rfl, rfl, rfl⟩

/-- C19 fails on the code as stated: the pass with the 5th mismatch puts the index
back and ends with `continue`, so the session is still running; when index 0
is on the queue again the session receives it (the byte sum stands in for
SHA-1, the expected digest is `[5]`, the piece sums to 6). -/
theorem startJob_badHash_counterexample :
    (startJobLoopBody (fun d => [d.sum % 256]) ⟨[], 3, 3, [], [[5]]⟩ [128]
      ⟨[0, 0, 0, 12, 7, 0, 0, 0, 0, 0, 0, 0, 0, 1, 2, 3], [], 5⟩ 4 0).control = .next ∧
    (startJobLoopBody (fun d => [d.sum % 256]) ⟨[], 3, 3, [], [[5]]⟩ [128]
      ⟨[0, 0, 0, 12, 7, 0, 0, 0, 0, 0, 0, 0, 0, 1, 2, 3], [], 5⟩ 4 0).badHashErrors = 5 ∧
    Pipeline.run (fun d => [d.sum % 256]) ⟨[], 3, 3, [], [[5]]⟩
      ⟨[], [],
        [⟨⟨[0, 0, 0, 12, 7, 0, 0, 0, 0, 0, 0, 0, 0, 1, 2, 3], [], 5⟩, [128], 4, some 0, true⟩]⟩
      [0, 0]
      = some ⟨[], [],
          [⟨⟨[], [[0, 0, 0, 13, 6, 0, 0, 0, 0, 0, 0, 0, 0, 0, 0, 0, 3]], 4⟩, [128], 5, some 0,
            true⟩]⟩ :=
  ⟨rfl, rfl, rfl⟩

/-- C19, as amended: a session counts its hash mismatches and each mismatch puts
the piece index back on the job queue, the loop going on; the counter changes
on a mismatch only.  Once the counter has reached 5, the pass for the next
index the session receives puts that index back and returns at once: the
connection is untouched, so no further `Request` is sent, and nothing is put on
`finishedJobs`.  While the counter is below 5 a pass returns only when the
download returns an error, so the session keeps taking jobs. -/
theorem startJob_badHash_limit (sha1 : List Nat → List Nat) (metaInfo : MetaInfo)
    (bitfieldPayload : List Nat) (peerConn : Conn) (badHashErrors pieceIndex : Nat) :
    (∀ (pieceData : List Nat) (conn1 : Conn) (expectedHash : List Nat),
      badHashErrors < 5 → hasPiece pieceIndex bitfieldPayload = true →
      downloadPiece peerConn metaInfo pieceIndex = (.ok pieceData, conn1) →
      metaInfo.piecesHash.get? pieceIndex = some expectedHash →
      expectedHash ≠ sha1 pieceData →
      (startJobLoopBody sha1 metaInfo bitfieldPayload peerConn badHashErrors pieceIndex).sends
        = [.jobQueue pieceIndex] ∧
      (startJobLoopBody sha1 metaInfo bitfieldPayload peerConn badHashErrors
        pieceIndex).badHashErrors = badHashErrors + 1 ∧
      (startJobLoopBody sha1 metaInfo bitfieldPayload peerConn badHashErrors pieceIndex).control
        = .next) ∧
    ((startJobLoopBody sha1 metaInfo bitfieldPayload peerConn badHashErrors
        pieceIndex).badHashErrors ≠ badHashErrors →
      ∃ (pieceData : List Nat) (conn1 : Conn) (expectedHash : List Nat),
        downloadPiece peerConn metaInfo pieceIndex = (.ok pieceData, conn1) ∧
        metaInfo.piecesHash.get? pieceIndex = some expectedHash ∧
        expectedHash ≠ sha1 pieceData) ∧
    (5 ≤ badHashErrors → ∀ received : List Nat,
      (startJobLoop sha1 metaInfo bitfieldPayload (pieceIndex :: received) peerConn
        badHashErrors).sends = [.jobQueue pieceIndex] ∧
      (startJobLoop sha1 metaInfo bitfieldPayload (pieceIndex :: received) peerConn
        badHashErrors).control = .done ∧
      (startJobLoop sha1 metaInfo bitfieldPayload (pieceIndex :: received) peerConn
        badHashErrors).conn = peerConn) ∧
    (badHashErrors < 5 →
      (startJobLoopBody sha1 metaInfo bitfieldPayload peerConn badHashErrors pieceIndex).control
        = .done →
      ∃ conn1, downloadPiece peerConn metaInfo pieceIndex = (.error .error, conn1)) := by
  refine ⟨?_, ?_, ?_, ?_⟩
  · intro pieceData conn1 expectedHash hbad hhas hdl hget hne
    have hbad' : ¬ 5 ≤ badHashErrors := by omega
    rw [List.get?_eq_getElem?] at hget
    unfold startJobLoopBody
    simp [hbad', hhas, hdl, hget, hne]
  · intro hchange
    unfold startJobLoopBody at hchange
    by_cases hbad : 5 ≤ badHashErrors
    · simp [hbad] at hchange
    · by_cases hhas : hasPiece pieceIndex bitfieldPayload = true
      · simp only [hbad, if_false, hhas, Bool.not_true, Bool.false_eq_true] at hchange
        rcases hdl : downloadPiece peerConn metaInfo pieceIndex with ⟨res, conn1⟩
        rw [hdl] at hchange
        cases res with
        | error e => cases e <;> simp at hchange
        | ok pieceData =>
          simp only at hchange
          cases hget : metaInfo.piecesHash.get? pieceIndex with
          | none => rw [hget] at hchange; simp at hchange
          | some expectedHash =>
            rw [hget] at hchange
            by_cases hne : expectedHash = sha1 pieceData
            · simp [hne] at hchange
            · exact ⟨pieceData, conn1, expectedHash, rfl, rfl, hne⟩
      · simp [hbad, hhas] at hchange
  · intro hbad received
    have hbody : startJobLoopBody sha1 metaInfo bitfieldPayload peerConn badHashErrors pieceIndex
        = ⟨[.jobQueue pieceIndex], .done, badHashErrors, peerConn⟩ := by
      unfold startJobLoopBody
      simp [hbad]
    unfold startJobLoop
    simp [hbody]
  · intro hbad hdone
    have hbad' : ¬ 5 ≤ badHashErrors := by omega
    unfold startJobLoopBody at hdone
    by_cases hhas : hasPiece pieceIndex bitfieldPayload = true
    · simp only [hbad', if_false, hhas, Bool.not_true, Bool.false_eq_true] at hdone
      rcases hdl : downloadPiece peerConn metaInfo pieceIndex with ⟨res, conn1⟩
      rw [hdl] at hdone
      cases res with
      | error e =>
        cases e with
        | error => exact ⟨conn1, rfl⟩
        | abort => simp at hdone
        | panic => simp at hdone
        | fuel => simp at hdone
        | blocked => simp at hdone
      | ok pieceData =>
        simp only at hdone
        cases hget : metaInfo.piecesHash.get? pieceIndex with
        | none => rw [hget] at hdone; simp at hdone
        | some expectedHash =>
          rw [hget] at hdone
          by_cases hne : expectedHash = sha1 pieceData
          · simp [hne] at hdone
          · simp [hne] at hdone
    · simp [hbad', hhas] at hdone

/-- C19 amended, at a session whose counter is 5: it puts the index it receives
back, returns, and its connection is as before. -/
theorem startJob_badHash_limit_witness :
    (startJobLoop (fun d => [d.sum % 256]) ⟨[], 3, 3, [], [[5]]⟩ [128] (0 :: [0, 0])
      ⟨[0, 0, 0, 12, 7, 0, 0, 0, 0, 0, 0, 0, 0, 1, 2, 3], [], 5⟩ 5).sends = [.jobQueue 0] ∧
    (startJobLoop (fun d => [d.sum % 256]) ⟨[], 3, 3, [], [[5]]⟩ [128] (0 :: [0, 0])
      ⟨[0, 0, 0, 12, 7, 0, 0, 0, 0, 0, 0, 0, 0, 1, 2, 3], [], 5⟩ 5).control = .done ∧
    (startJobLoop (fun d => [d.sum % 256]) ⟨[], 3, 3, [], [[5]]⟩ [128] (0 :: [0, 0])
      ⟨[0, 0, 0, 12, 7, 0, 0, 0, 0, 0, 0, 0, 0, 1, 2, 3], [], 5⟩ 5).conn
      = ⟨[0, 0, 0, 12, 7, 0, 0, 0, 0, 0, 0, 0, 0, 1, 2, 3], [], 5⟩ :=
  (startJob_badHash_limit (fun d => [d.sum % 256]) ⟨[], 3, 3, [], [[5]]⟩ [128]
    ⟨[0, 0, 0, 12, 7, 0, 0, 0, 0, 0, 0, 0, 0, 1, 2, 3], [], 5⟩ 5 0).2.2.1 (by decide) [0, 0]

/-! ## Decoder totality -/

theorem decode_succ (fuel : Nat) (value : List Nat) (cur : Nat) :
    decode (fuel + 1) value cur
      = match determineDataType value cur with
        | .error e => .error e
        | .ok (.Int, cur1) =>
          match parseInt value cur1 with
          | .ok (n, cur2) => .ok (.int n, cur2)
          | .error .error => .error .abort
          | .error e => .error e
        | .ok (.String, cur1) =>
          match parseString value cur1 with
          | .ok (s, cur2) => .ok (.str s, cur2)
          | .error .error => .error .abort
          | .error e => .error e
        | .ok (.List, cur1) => decodeList fuel value cur1 []
        | .ok (.Dictionary, cur1) => decodeDict fuel value cur1 []
        | .ok (.Unknown, _) => .error .abort := by
  rfl

theorem decodeList_succ (fuel : Nat) (value : List Nat) (cur : Nat) (result : List Value) :
    decodeList (fuel + 1) value cur result
      = match value.get? cur with
        | none => .ok (.list result, cur + 1)
        | some c =>
          if c = 101 then .ok (.list result, cur + 1)
          else
            match decode fuel value cur with
            | .error e => .error e
            | .ok (data, cur1) => decodeList fuel value cur1 (result ++ [data]) := by
  rfl

theorem decodeDict_succ (fuel : Nat) (value : List Nat) (cur : Nat)
    (result : List (List Nat × Value)) :
    decodeDict (fuel + 1) value cur result
      = match value.get? cur with
        | none => .ok (.dict result, cur + 1)
        | some c =>
          if c = 101 then .ok (.dict result, cur + 1)
          else
            match decode fuel value cur with
            | .error e => .error e
            | .ok (key, cur1) =>
              match decode fuel value cur1 with
              | .error e => .error e
              | .ok (v, cur2) =>
                match key with
                | .str keyStr => decodeDict fuel value cur2 (mapSet result keyStr v)
                | _ => .error .abort := by
  rfl

/-- What `parseInt` can do: return with the cursor moved on, return an error, or
panic. -/
theorem parseInt_cases (value : List Nat) (cur : Nat) :
    (∃ n cur', parseInt value cur = .ok (n, cur') ∧ cur < cur') ∨
    parseInt value cur = .error .error ∨ parseInt value cur = .error .panic := by
  unfold parseInt
  by_cases hlen : value.length < cur
  · simp [hlen]
  · simp only [hlen, if_false]
    cases hidx : firstIndex 101 (value.drop cur) with
    | none => simp
    | some i =>
      simp only
      cases hat : Atoi ((value.drop cur).take i) with
      | none => simp
      | some n =>
        left
        exact ⟨n, cur + i + 1, rfl, by omega⟩

/-- What `parseString` can do: return with the cursor moved on, return an error,
or panic. -/
theorem parseString_cases (value : List Nat) (cur : Nat) :
    (∃ s cur', parseString value cur = .ok (s, cur') ∧ cur < cur') ∨
    parseString value cur = .error .error ∨ parseString value cur = .error .panic := by
  unfold parseString
  by_cases hlen : value.length < cur
  · simp [hlen]
  · simp only [hlen, if_false]
    cases hidx : firstIndex 58 (value.drop cur) with
    | none => simp
    | some i =>
      simp only
      cases hat : Atoi ((value.drop cur).take i) with
      | none => simp
      | some n =>
        simp only
        split
        · exact Or.inr (Or.inr rfl)
        · left
          exact ⟨_, _, rfl, by omega⟩

/-- What `determineDataType` can do: panic past the end of the input, or return a
tag, moving the cursor by one unless the tag is `String`. -/
theorem determineDataType_cases (value : List Nat) (cur : Nat) :
    (value.length ≤ cur ∧ determineDataType value cur = .error .panic) ∨
    (cur < value.length ∧
      (determineDataType value cur = .ok (.String, cur) ∨
       ∃ t, t ≠ BencodingDataType.String ∧ determineDataType value cur = .ok (t, cur + 1))) := by
  unfold determineDataType
  cases hget : value.get? cur with
  | none =>
    left
    rw [List.get?_eq_getElem?, List.getElem?_eq_none_iff] at hget
    exact ⟨hget, rfl⟩
  | some c =>
    right
    have hlt : cur < value.length := by
      rw [List.get?_eq_getElem?] at hget
      exact (List.getElem?_eq_some_iff.1 hget).1
    refine ⟨hlt, ?_⟩
    simp only
    split
    · exact Or.inl rfl
    · split
      · exact Or.inr ⟨.Int, by decide, rfl⟩
      · split
        · exact Or.inr ⟨.List, by decide, rfl⟩
        · split
          · exact Or.inr ⟨.Dictionary, by decide, rfl⟩
          · exact Or.inr ⟨.Unknown, by decide, rfl⟩


/-- Every call of `decode`, and every run of one of its loops, that returns
leaves the cursor strictly further on. -/
theorem decode_advances (value : List Nat) :
    ∀ fuel : Nat,
      (∀ cur v cur', decode fuel value cur = .ok (v, cur') → cur < cur') ∧
      (∀ cur result v cur', decodeList fuel value cur result = .ok (v, cur') → cur < cur') ∧
      (∀ cur result v cur', decodeDict fuel value cur result = .ok (v, cur') → cur < cur') := by
  intro fuel
  induction fuel with
  | zero =>
    refine ⟨?_, ?_, ?_⟩
    · intro cur v cur' h
      exact Except.noConfusion (show (Except.error Fault.fuel : Except Fault (Value × Nat))
        = .ok (v, cur') from h)
    · intro cur result v cur' h
      exact Except.noConfusion (show (Except.error Fault.fuel : Except Fault (Value × Nat))
        = .ok (v, cur') from h)
    · intro cur result v cur' h
      exact Except.noConfusion (show (Except.error Fault.fuel : Except Fault (Value × Nat))
        = .ok (v, cur') from h)
  | succ f ih =>
    obtain ⟨ihd, ihl, ihm⟩ := ih
    refine ⟨?_, ?_, ?_⟩
    · intro cur v cur' h
      rw [decode_succ] at h
      rcases determineDataType_cases value cur with ⟨_, hdt⟩ | ⟨_, hdt | ⟨t, ht, hdt⟩⟩
      · rw [hdt] at h
        exact Except.noConfusion h
      · rw [hdt] at h
        simp only at h
        rcases parseString_cases value cur with ⟨s, c', hps, hlt⟩ | hps | hps
        · rw [hps] at h
          simp only [Except.ok.injEq, Prod.mk.injEq] at h
          omega
        · rw [hps] at h; exact Except.noConfusion h
        · rw [hps] at h; exact Except.noConfusion h
      · rw [hdt] at h
        cases t with
        | String => exact absurd rfl ht
        | Int =>
          simp only at h
          rcases parseInt_cases value (cur + 1) with ⟨n, c', hpi, hlt⟩ | hpi | hpi
          · rw [hpi] at h
            simp only [Except.ok.injEq, Prod.mk.injEq] at h
            omega
          · rw [hpi] at h; exact Except.noConfusion h
          · rw [hpi] at h; exact Except.noConfusion h
        | List =>
          have := ihl (cur + 1) [] v cur' h
          omega
        | Dictionary =>
          have := ihm (cur + 1) [] v cur' h
          omega
        | Unknown => exact Except.noConfusion h
    · intro cur result v cur' h
      rw [decodeList_succ] at h
      cases hget : value.get? cur with
      | none =>
        rw [hget] at h
        simp only [Except.ok.injEq, Prod.mk.injEq] at h
        omega
      | some c =>
        rw [hget] at h
        simp only at h
        split at h
        · simp only [Except.ok.injEq, Prod.mk.injEq] at h
          omega
        · cases hd : decode f value cur with
          | error e => rw [hd] at h; exact Except.noConfusion h
          | ok r =>
            obtain ⟨data, cur1⟩ := r
            rw [hd] at h
            have h1 := ihd cur data cur1 hd
            have h2 := ihl cur1 _ v cur' h
            omega
    · intro cur result v cur' h
      rw [decodeDict_succ] at h
      cases hget : value.get? cur with
      | none =>
        rw [hget] at h
        simp only [Except.ok.injEq, Prod.mk.injEq] at h
        omega
      | some c =>
        rw [hget] at h
        simp only at h
        split at h
        · simp only [Except.ok.injEq, Prod.mk.injEq] at h
          omega
        · cases hd : decode f value cur with
          | error e => rw [hd] at h; exact Except.noConfusion h
          | ok r =>
            obtain ⟨key, cur1⟩ := r
            rw [hd] at h
            simp only at h
            cases hd2 : decode f value cur1 with
            | error e => rw [hd2] at h; exact Except.noConfusion h
            | ok r2 =>
              obtain ⟨val, cur2⟩ := r2
              rw [hd2] at h
              have h1 := ihd cur key cur1 hd
              have h2 := ihd cur1 val cur2 hd2
              cases key with
              | str keyStr =>
                have h3 := ihm cur2 _ v cur' h
                omega
              | int n => exact Except.noConfusion h
              | list xs => exact Except.noConfusion h
              | dict m => exact Except.noConfusion h


theorem Terminated.ok (v : Value) (cur : Nat) : Terminated (.ok (v, cur)) :=
  Or.inl ⟨v, cur, rfl⟩

theorem Terminated.abort : Terminated (.error .abort) := Or.inr (Or.inl rfl)

theorem Terminated.panic : Terminated (.error .panic) := Or.inr (Or.inr rfl)

theorem Terminated.ne_fuel (r : Except Fault (Value × Nat)) (h : Terminated r) :
    r ≠ .error .fuel := by
  rcases h with ⟨v, cur, rfl⟩ | rfl | rfl
  · exact fun h => Except.noConfusion h
  · exact fun h => Fault.noConfusion (Except.error.inj h)
  · exact fun h => Fault.noConfusion (Except.error.inj h)

/-- With a budget of twice the bytes from the cursor to the end of the input,
plus one (plus two for a loop), the decoder comes to an end. -/
theorem decode_terminates (value : List Nat) :
    ∀ fuel : Nat,
      (∀ cur, 2 * (value.length - cur) + 1 ≤ fuel → Terminated (decode fuel value cur)) ∧
      (∀ cur result, 2 * (value.length - cur) + 2 ≤ fuel →
        Terminated (decodeList fuel value cur result)) ∧
      (∀ cur result, 2 * (value.length - cur) + 2 ≤ fuel →
        Terminated (decodeDict fuel value cur result)) := by
  intro fuel
  induction fuel with
  | zero =>
    refine ⟨?_, ?_, ?_⟩
    · intro cur h; omega
    · intro cur _ h; omega
    · intro cur _ h; omega
  | succ f ih =>
    obtain ⟨ihd, ihl, ihm⟩ := ih
    have hadv := decode_advances value f
    refine ⟨?_, ?_, ?_⟩
    · intro cur hf
      rw [decode_succ]
      rcases determineDataType_cases value cur with ⟨_, hdt⟩ | ⟨hlt, hdt | ⟨t, ht, hdt⟩⟩
      · rw [hdt]; exact Terminated.panic
      · rw [hdt]
        simp only
        rcases parseString_cases value cur with ⟨s, c', hps, _⟩ | hps | hps
        · rw [hps]; exact Terminated.ok _ _
        · rw [hps]; exact Terminated.abort
        · rw [hps]; exact Terminated.panic
      · rw [hdt]
        cases t with
        | String => exact absurd rfl ht
        | Int =>
          simp only
          rcases parseInt_cases value (cur + 1) with ⟨n, c', hpi, _⟩ | hpi | hpi
          · rw [hpi]; exact Terminated.ok _ _
          · rw [hpi]; exact Terminated.abort
          · rw [hpi]; exact Terminated.panic
        | List => exact ihl (cur + 1) [] (by omega)
        | Dictionary => exact ihm (cur + 1) [] (by omega)
        | Unknown => exact Terminated.abort
    · intro cur result hf
      rw [decodeList_succ]
      cases hget : value.get? cur with
      | none => exact Terminated.ok _ _
      | some c =>
        have hlt : cur < value.length := by
          rw [List.get?_eq_getElem?] at hget
          exact (List.getElem?_eq_some_iff.1 hget).1
        simp only
        split
        · exact Terminated.ok _ _
        · have hd := ihd cur (by omega)
          rcases hd with ⟨data, cur1, hd⟩ | hd | hd
          · rw [hd]
            have := hadv.1 cur data cur1 hd
            exact ihl cur1 _ (by omega)
          · rw [hd]; exact Terminated.abort
          · rw [hd]; exact Terminated.panic
    · intro cur result hf
      rw [decodeDict_succ]
      cases hget : value.get? cur with
      | none => exact Terminated.ok _ _
      | some c =>
        have hlt : cur < value.length := by
          rw [List.get?_eq_getElem?] at hget
          exact (List.getElem?_eq_some_iff.1 hget).1
        simp only
        split
        · exact Terminated.ok _ _
        · have hd := ihd cur (by omega)
          rcases hd with ⟨key, cur1, hd⟩ | hd | hd
          · rw [hd]
            simp only
            have h1 := hadv.1 cur key cur1 hd
            have hd2 := ihd cur1 (by omega)
            rcases hd2 with ⟨val, cur2, hd2⟩ | hd2 | hd2
            · rw [hd2]
              have h2 := hadv.1 cur1 val cur2 hd2
              cases key with
              | str keyStr => exact ihm cur2 _ (by omega)
              | int n => exact Terminated.abort
              | list xs => exact Terminated.abort
              | dict m => exact Terminated.abort
            · rw [hd2]; exact Terminated.abort
            · rw [hd2]; exact Terminated.panic
          · rw [hd]; exact Terminated.abort
          · rw [hd]; exact Terminated.panic


/-- A result reached within the budget is not changed by a larger budget. -/
theorem decode_fuel_succ (value : List Nat) :
    ∀ fuel : Nat,
      (∀ cur, decode fuel value cur ≠ .error .fuel →
        decode (fuel + 1) value cur = decode fuel value cur) ∧
      (∀ cur result, decodeList fuel value cur result ≠ .error .fuel →
        decodeList (fuel + 1) value cur result = decodeList fuel value cur result) ∧
      (∀ cur result, decodeDict fuel value cur result ≠ .error .fuel →
        decodeDict (fuel + 1) value cur result = decodeDict fuel value cur result) := by
  intro fuel
  induction fuel with
  | zero =>
    refine ⟨?_, ?_, ?_⟩
    · intro cur h; exact absurd rfl h
    · intro cur result h; exact absurd rfl h
    · intro cur result h; exact absurd rfl h
  | succ f ih =>
    obtain ⟨ihd, ihl, ihm⟩ := ih
    refine ⟨?_, ?_, ?_⟩
    · intro cur h
      rw [decode_succ f] at h
      rw [decode_succ (f + 1), decode_succ f]
      rcases determineDataType_cases value cur with ⟨_, hdt⟩ | ⟨_, hdt | ⟨t, ht, hdt⟩⟩
      · rw [hdt]
      · rw [hdt]
      · rw [hdt] at h ⊢
        cases t with
        | String => rfl
        | Int => rfl
        | List => exact ihl (cur + 1) [] h
        | Dictionary => exact ihm (cur + 1) [] h
        | Unknown => rfl
    · intro cur result h
      rw [decodeList_succ f] at h
      rw [decodeList_succ (f + 1), decodeList_succ f]
      cases hget : value.get? cur with
      | none => rfl
      | some c =>
        rw [hget] at h
        simp only at h ⊢
        split
        · rfl
        · rename_i hc
          rw [if_neg hc] at h
          have hne : decode f value cur ≠ .error .fuel := by
            intro hfuel
            rw [hfuel] at h
            exact h rfl
          rw [ihd cur hne]
          cases hd : decode f value cur with
          | error e => rfl
          | ok r =>
            obtain ⟨data, cur1⟩ := r
            rw [hd] at h
            exact ihl cur1 _ h
    · intro cur result h
      rw [decodeDict_succ f] at h
      rw [decodeDict_succ (f + 1), decodeDict_succ f]
      cases hget : value.get? cur with
      | none => rfl
      | some c =>
        rw [hget] at h
        simp only at h ⊢
        split
        · rfl
        · rename_i hc
          rw [if_neg hc] at h
          have hne : decode f value cur ≠ .error .fuel := by
            intro hfuel
            rw [hfuel] at h
            exact h rfl
          rw [ihd cur hne]
          cases hd : decode f value cur with
          | error e => rfl
          | ok r =>
            obtain ⟨key, cur1⟩ := r
            rw [hd] at h
            simp only at h ⊢
            have hne2 : decode f value cur1 ≠ .error .fuel := by
              intro hfuel
              rw [hfuel] at h
              exact h rfl
            rw [ihd cur1 hne2]
            cases hd2 : decode f value cur1 with
            | error e => rfl
            | ok r2 =>
              obtain ⟨val, cur2⟩ := r2
              rw [hd2] at h
              cases key with
              | str keyStr => exact ihm cur2 _ h
              | int n => rfl
              | list xs => rfl
              | dict m => rfl

theorem decode_fuel_add (value : List Nat) (fuel cur : Nat)
    (h : decode fuel value cur ≠ .error .fuel) :
    ∀ k, decode (fuel + k) value cur = decode fuel value cur := by
  intro k
  induction k with
  | zero => rfl
  | succ k ih =>
    rw [← Nat.add_assoc, (decode_fuel_succ value (fuel + k)).1 cur (by rw [ih]; exact h), ih]

/-- C20: decoder totality.  For every input and every start cursor
`Decoder.decode` comes to an end, with a value, an `abort` or a panic: the
budget `2 * len + 2` is never exhausted and a larger budget gives the same
result.  The reason is that every call of `decode` that returns, and so every
nested call inside a list or dictionary loop, leaves the cursor strictly further
on, as do the loops themselves; the zero-length string `0:` moves it by 2. -/
theorem decode_total (value : List Nat) (cur : Nat) :
    Terminated (decode (2 * value.length + 2) value cur) ∧
    decode (2 * value.length + 2) value cur ≠ .error .fuel ∧
    (∀ fuel, 2 * value.length + 2 ≤ fuel →
      decode fuel value cur = decode (2 * value.length + 2) value cur) ∧
    (∀ fuel v cur', decode fuel value cur = .ok (v, cur') → cur < cur') ∧
    (∀ fuel result v cur', decodeList fuel value cur result = .ok (v, cur') → cur < cur') ∧
    (∀ fuel result v cur', decodeDict fuel value cur result = .ok (v, cur') → cur < cur') ∧
    (∀ (fuel : Nat) (pre post : List Nat),
      decode (fuel + 1) (pre ++ (48 :: 58 :: post)) pre.length
        = .ok (.str [], pre.length + 2)) := by
  have hterm : Terminated (decode (2 * value.length + 2) value cur) :=
    (decode_terminates value (2 * value.length + 2)).1 cur (by omega)
  have hne := Terminated.ne_fuel _ hterm
  refine ⟨hterm, hne, ?_, ?_, ?_, ?_, ?_⟩
  · intro fuel hfuel
    obtain ⟨k, rfl⟩ : ∃ k, fuel = 2 * value.length + 2 + k := ⟨fuel - (2 * value.length + 2), by omega⟩
    exact decode_fuel_add value _ cur hne k
  · intro fuel v cur' h
    exact (decode_advances value fuel).1 cur v cur' h
  · intro fuel result v cur' h
    exact (decode_advances value fuel).2.1 cur result v cur' h
  · intro fuel result v cur' h
    exact (decode_advances value fuel).2.2 cur result v cur' h
  · intro fuel pre post
    have h := decode_str_canon fuel pre [] post (by simp)
    simpa [leafText, natToDecimal, natToDecimalFuel] using h

/-- C20 at the unterminated nested input `ll0:` from cursor 0 and from cursor 9,
past its end. -/
theorem decode_total_witness :
    decode 20 (bytes "ll0:") 0 = decode (2 * (bytes "ll0:").length + 2) (bytes "ll0:") 0 ∧
    decode (2 * (bytes "ll0:").length + 2) (bytes "ll0:") 0
      = .ok (.list [.list [.str []]], 6) ∧
    decode (2 * (bytes "ll0:").length + 2) (bytes "ll0:") 9 = .error .panic :=
  ⟨(decode_total (bytes "ll0:") 0).2.2.1 20 (by decide), rfl, rfl⟩

end BitTorrent
